import Mathlib

/-!
A verification development for the core of the petronel-graphql repository:
the raid handler (`src/raid_handler.rs`), the data model (`src/model.rs`),
the tweet parser (`src/twitter/parse.rs`), relay pagination
(`src/graphql/relay.rs`), the cursor and node-id codecs, and the image-hash
worker (`src/image_hash/stream.rs`).

Modelling conventions:
* Rust `String`/`str` values are `List Char`; `CachedString` interning only
  affects sharing, not values, so it is dropped.
* `chrono::DateTime<Utc>` is an `Int` (a timestamp); only its total order and
  the millisecond store of `AtomicDateTime` are used by the verified code.
* `Arc<BossEntry>` identity is modelled by an index into an append-only store:
  `HandlerState.store`.  The concurrent `DashMap` is an association list
  (`HandlerState.index`); `DashMap` iteration order is the list order.
* `CircularQueue` (history ring buffer) is a `List` in iteration order
  (newest first, as `CircularQueue::iter`); `asc_iter` is `List.reverse`.
  Pushing into a capacity-0 `CircularQueue` panics in the Rust crate, so all
  theorems about histories assume `0 < historySize`.
* Fallible Rust code (`TryFrom`, `.parse()`, panicking `.expect(..)`) is
  modelled with `Option`/`Except`.
-/

/-! ## Data model (`src/model.rs`) -/

/-- Rust strings, as lists of unicode scalar values. -/
abbrev CName := List Char

/-- `Language` from `src/model.rs`. -/
inductive LanguageM
  | japanese
  | english
deriving DecidableEq

/-- `LangString` from `src/model.rs`. -/
structure LangStringM where
  en : Option CName
  ja : Option CName
deriving DecidableEq

/-- `LangString::get`. -/
def LangStringM.get : LangStringM → LanguageM → Option CName
  | l, LanguageM.english => l.en
  | l, LanguageM.japanese => l.ja

/-- `LangString::set`. -/
def LangStringM.set : LangStringM → LanguageM → Option CName → LangStringM
  | l, LanguageM.english, v => { l with en := v }
  | l, LanguageM.japanese, v => { l with ja := v }

/-- `LangString::canonical`: `ja` if present, else `en`. -/
def LangStringM.canonical (l : LangStringM) : Option CName :=
  l.ja.or l.en

/-- `LangString::merge`: field-wise, `self` wins on presence. -/
def LangStringM.merge (self other : LangStringM) : LangStringM :=
  { en := self.en.or other.en, ja := self.ja.or other.ja }

/-- `LangString::new`. -/
def LangStringM.ofLang : LanguageM → CName → LangStringM
  | LanguageM.english, v => { en := some v, ja := none }
  | LanguageM.japanese, v => { en := none, ja := some v }

/-- The keys a `BossEntry` is indexed under (`BossEntry::for_each_key`:
`ja` first, then `en`). -/
def LangStringM.keys (l : LangStringM) : List CName :=
  l.ja.toList ++ l.en.toList

/-- `Raid` from `src/model.rs`.  `created_at` keeps only the parsed instant
(the cached string form is irrelevant to the verified behaviour). -/
structure RaidM where
  id : CName
  tweet_id : Nat
  user_name : CName
  user_image : Option CName
  boss_name : CName
  created_at : Int
  text : Option CName
  language : LanguageM
  image_url : Option CName
deriving DecidableEq

/-- `Boss` from `src/model.rs`; `last_seen_at` is the `AtomicDateTime`
millisecond value. -/
structure BossM where
  name : LangStringM
  image : LangStringM
  level : Option Int
  last_seen_at : Int
  image_hash : Option Int
deriving DecidableEq

/-- `BossEntry` from `src/raid_handler.rs`.  `history` is in `CircularQueue`
iteration order (newest first); `broadcastId` identifies the broadcast
channel (cloning an entry clones the sender handle, keeping the id). -/
structure BossEntryM where
  boss : BossM
  history : List RaidM
  broadcastId : Nat
deriving DecidableEq

/-! ## `parse_level` and `Boss::from(&Raid)` (`src/model.rs`) -/

/-- Numeric value of a digit string (what `str::parse` computes before its
range check). -/
def digitsVal (ds : List Char) : Nat :=
  ds.foldl (fun a c => a * 10 + (c.toNat - 48)) 0

/-- The digits captured by `[0-9]+` when it must be followed by a space:
greedy digits, then a mandatory `' '`. -/
def levelDigitsFrom (r : List Char) : Option (List Char) :=
  let ds := r.takeWhile (fun c => c.isDigit)
  if ds.isEmpty then none
  else
    match r.drop ds.length with
    | ' ' :: _ => some ds
    | _ => none

/-- The capture of `REGEX_LEVEL`, i.e. of `^Lv(?:l )?(?P<level>[0-9]+) `:
a literal `Lv`, an optional `l `, one-or-more digits, a space.  The optional
group is tried greedily; on failure the engine retries without it. -/
def levelCapture (name : CName) : Option (List Char) :=
  match name with
  | 'L' :: 'v' :: rest =>
    match rest with
    | 'l' :: ' ' :: r =>
      match levelDigitsFrom r with
      | some ds => some ds
      | none => levelDigitsFrom rest
    | _ => levelDigitsFrom rest
  | _ => none

/-- `parse_level` from `src/model.rs`.  The captured digits are fed to
`str::parse::<i16>()` whose `Err` is turned into a panic by
`.expect("Somehow failed to parse level")`; the panic is modelled as
`Except.error` carrying the expect message. -/
def parseLevelE (name : CName) : Except String (Option Int) :=
  match levelCapture name with
  | none => Except.ok none
  | some ds =>
    if digitsVal ds ≤ 32767 then Except.ok (some (Int.ofNat (digitsVal ds)))
    else Except.error "Somehow failed to parse level"

/-- `impl From<&Raid> for Boss` from `src/model.rs` (propagating the
possible `parse_level` panic). -/
def bossFromRaid (r : RaidM) : Except String BossM :=
  match parseLevelE r.boss_name with
  | Except.error m => Except.error m
  | Except.ok lvl =>
    Except.ok
      { name := LangStringM.ofLang r.language r.boss_name
        image :=
          match r.image_url with
          | none => { en := none, ja := none }
          | some url => LangStringM.ofLang r.language url
        level := lvl
        last_seen_at := r.created_at
        image_hash := none }

/-! ## The handler state (`BossMap` and `RaidHandlerInner2`) -/

/-- The handler's registry.  `store` is append-only and models `Arc`
allocation: an index into `store` is an `Arc<BossEntry>` identity.  `index`
models `BossMap.map` (`DashMap<CachedString, Arc<BossEntry>>`).  The sorted
`vec` snapshot and the `waiting` map play no role in the claims below and
are not modelled. -/
structure HandlerState where
  historySize : Nat
  store : List BossEntryM
  index : List (CName × Nat)
deriving DecidableEq

/-- Association-list lookup (leftmost binding wins), modelling
`DashMap::get`. -/
def lookupIdx : List (CName × Nat) → CName → Option Nat
  | [], _ => none
  | p :: rest, n => if p.1 = n then some p.2 else lookupIdx rest n

/-- Replace the binding for `n` (or append one). -/
def updateAssoc (idx : List (CName × Nat)) (n : CName) (k : Nat) :
    List (CName × Nat) :=
  match idx with
  | [] => [(n, k)]
  | p :: rest => if p.1 = n then (n, k) :: rest else p :: updateAssoc rest n k

/-- Bind every key in `ks` to the entry id `k`. -/
def bindKeys (idx : List (CName × Nat)) (ks : List CName) (k : Nat) :
    List (CName × Nat) :=
  ks.foldl (fun acc n => updateAssoc acc n k) idx

/-- `RaidHandlerInner2::boss` (via `BossMap::get`), returning the `Arc`
identity together with the entry. -/
def bossRef (s : HandlerState) (n : CName) : Option (Nat × BossEntryM) :=
  match lookupIdx s.index n with
  | none => none
  | some i =>
    match s.store[i]? with
    | none => none
    | some e => some (i, e)

/-- `BossMap::insert`: index the entry under every name it carries
(`for_each_key`: `ja` then `en`); the entry is a fresh `Arc`. -/
def insertEntry (s : HandlerState) (e : BossEntryM) : HandlerState :=
  { s with
    store := s.store ++ [e]
    index := bindKeys s.index e.boss.name.keys s.store.length }

/-- In-place mutation of a shared entry (`last_seen_at.replace`,
`history.write().push`): every binding pointing at slot `i` observes it. -/
def setEntry (s : HandlerState) (i : Nat) (e : BossEntryM) : HandlerState :=
  { s with store := s.store.set i e }

/-- `CircularQueue::push` on a queue of capacity `cap`, in newest-first
iteration order.  (For `cap = 0` the Rust crate panics on push; theorems
using histories therefore assume `0 < cap`.) -/
def ringPush (cap : Nat) (q : List RaidM) (r : RaidM) : List RaidM :=
  r :: q.take (cap - 1)

/-! ## Stable sort by `created_at` (Rust `slice::sort_by_key` is stable) -/

/-- Insert `r` after every element whose key is `≤ r`'s key (stable). -/
def insertByCreated (r : RaidM) : List RaidM → List RaidM
  | [] => [r]
  | x :: xs =>
    if x.created_at ≤ r.created_at then x :: insertByCreated r xs
    else r :: x :: xs

/-- Stable ascending sort by `created_at`, modelling
`combined_history.sort_by_key(|raid| raid.created_at)`. -/
def sortByCreated (l : List RaidM) : List RaidM :=
  l.foldl (fun acc x => insertByCreated x acc) []

/-! ## `RaidHandlerInner2::update_image_hash` and `push` -/

/-- The predicate of the `BossMap::find` scan inside `update_image_hash`. -/
def entryMatches (h : Int) (lvl : Option Int) (nm : LangStringM)
    (e : BossEntryM) : Bool :=
  decide (e.boss.image_hash = some h) && decide (e.boss.level = lvl)
    && !decide (e.boss.name = nm)

/-- `BossMap::find` over the map's `(key, value)` iterator; iteration order
is the order of `index`. -/
def findMatching (s : HandlerState) (h : Int) (lvl : Option Int)
    (nm : LangStringM) : Option (Nat × BossEntryM) :=
  s.index.findSome? fun p =>
    match s.store[p.2]? with
    | some e => if entryMatches h lvl nm e then some (p.2, e) else none
    | none => none

/-- The merged history computed inside `update_image_hash`: `asc_iter` of the
discarded entry's queue, extended with `asc_iter` of the kept one, stably
sorted by `created_at`, drained into a fresh queue of capacity `cap`. -/
def mergeHistories (cap : Nat) (discardQ keepQ : List RaidM) : List RaidM :=
  (sortByCreated (discardQ.reverse ++ keepQ.reverse)).foldl (ringPush cap) []

/-- The merged `BossEntry` built inside `update_image_hash` when a matching
entry is found: values are kept from `keep` (the Japanese-named entry), the
names and images are merged (`keep` wins), `image_hash` is set,
`last_seen_at` is the max, the broadcast channel is `keep`'s, and the
histories are merged. -/
def mergedEntryOf (cap : Nat) (h : Int) (keep discard : BossEntryM) :
    BossEntryM :=
  { boss :=
      { keep.boss with
        name := keep.boss.name.merge discard.boss.name
        image := keep.boss.image.merge discard.boss.image
        image_hash := some h
        last_seen_at := max keep.boss.last_seen_at discard.boss.last_seen_at }
    history := mergeHistories cap discard.history keep.history
    broadcastId := keep.broadcastId }

/-- The no-match branch of `update_image_hash`: a clone of the entry with
only `image_hash` set. -/
def hashOnlyEntry (e : BossEntryM) (h : Int) : BossEntryM :=
  { e with boss := { e.boss with image_hash := some h } }

/-- `RaidHandlerInner2::update_image_hash` from `src/raid_handler.rs`. -/
def updateImageHash (s : HandlerState) (bn : CName) (h : Int) : HandlerState :=
  match bossRef s bn with
  | none => s
  | some (_, e) =>
    if e.boss.image_hash.isSome then s
    else
      match findMatching s h e.boss.level e.boss.name with
      | some (_, other) =>
        let keep := if e.boss.name.ja.isSome then e else other
        let discard := if e.boss.name.ja.isSome then other else e
        insertEntry s (mergedEntryOf s.historySize h keep discard)
      | none =>
        insertEntry s (hashOnlyEntry e h)

/-- Specification-side description of the merged history (spec §4.5.4 and
invariant I6): the `history_size` most recent elements of the union of the
two histories, ordered by `created_at` (newest first in iteration order).
The union is taken in the order the code concatenates it: the discarded
entry's raids oldest-first, then the kept entry's; the spec's multiset union
does not fix an order between equal timestamps. -/
def specMergedHistory (cap : Nat) (a b : List RaidM) : List RaidM :=
  (sortByCreated (a ++ b)).reverse.take cap

/-- `BossMap::new_entry_from_raid` (the broadcast channel is fresh, or
adopted from `waiting`, which is not modelled; either way it is a channel id
not shared with any stored entry). -/
def newEntryFromRaid (s : HandlerState) (r : RaidM) :
    Except String HandlerState :=
  match bossFromRaid r with
  | Except.error m => Except.error m
  | Except.ok b =>
    Except.ok (insertEntry s
      { boss := b
        history := ringPush s.historySize [] r
        broadcastId := s.store.length })

/-- The in-place effect of `push` on the resolved entry: the atomic
`last_seen_at.replace(&raid.created_at)` and `history.write().push(raid)`. -/
def pushUpdatedEntry (cap : Nat) (e : BossEntryM) (r : RaidM) : BossEntryM :=
  { e with
    boss := { e.boss with last_seen_at := r.created_at }
    history := ringPush cap e.history r }

/-- The cloned entry built by `push` when the raid carries an image URL for a
side the boss lacks: `BossEntry::clone` of the (already mutated) entry, with
`image.set(raid.language, raid.image_url)`. -/
def pushImageEntry (cap : Nat) (e : BossEntryM) (r : RaidM) : BossEntryM :=
  let e1 := pushUpdatedEntry cap e r
  { e1 with
    boss := { e1.boss with image := e1.boss.image.set r.language r.image_url } }

/-- `RaidHandlerInner2::push` from `src/raid_handler.rs`.  The existing-entry
branch mutates the shared entry in place (atomic `last_seen_at` store,
history push) and, when the raid brings an image for a side the boss lacks,
swaps a cloned entry with the image set into the map under all of the
entry's names. -/
def pushRaid (s : HandlerState) (r : RaidM) : Except String HandlerState :=
  match bossRef s r.boss_name with
  | some (i, e) =>
    let s1 := setEntry s i (pushUpdatedEntry s.historySize e r)
    if (e.boss.image.get r.language).isNone && r.image_url.isSome then
      Except.ok (insertEntry s1 (pushImageEntry s.historySize e r))
    else
      Except.ok s1
  | none => newEntryFromRaid s r

/-! ## Tweet parser (`src/twitter/parse.rs`, `src/twitter/model.rs`) -/

/-- `User` from `src/twitter/model.rs` (the fields `TryFrom<Tweet>` uses). -/
structure UserM where
  id : Nat
  screen_name : CName
  default_profile_image : Bool
  profile_image_url_https : CName
deriving DecidableEq

/-- `Entities` from `src/twitter/model.rs`; `media` is the retained media
item's `media_url_https`. -/
structure EntitiesM where
  media : Option CName
deriving DecidableEq

/-- `Tweet` from `src/twitter/model.rs` (`created_at` already parsed by the
deserializer). -/
structure TweetM where
  id : Nat
  created_at : Int
  text : CName
  user : UserM
  entities : EntitiesM
  source : CName
deriving DecidableEq

/-- `GRANBLUE_APP_SOURCE`: the game-app HTML anchor signature string. -/
def granblueSource : CName :=
  "<a href=\"http://granbluefantasy.jp/\" rel=\"nofollow\">グランブルー ファンタジー</a>".data

/-- The literal part of `REGEX_JAPANESE` between the `id` and `boss`
captures. -/
def jaTag : CName := " :参戦ID\n参加者募集！\n".data

/-- The literal part of `REGEX_ENGLISH` between the `id` and `boss`
captures. -/
def enTag : CName := " :Battle ID\nI need backup!\n".data

/-- A character of the `[0-9A-F]` class. -/
def isHexUp (c : Char) : Bool :=
  ('0' ≤ c && c ≤ '9') || ('A' ≤ c && c ≤ 'F')

/-- The four named captures of the raid regexes. -/
structure RawCaptures where
  text : CName
  id : CName
  boss : CName
  url : CName
deriving DecidableEq

/-- Both raid regexes have the shape
`(?P<text>(?s).*)(?P<id>[0-9A-F]{8})TAG(?P<boss>.+)\n?(?P<url>.*)`, where the
`(?s)` flag is scoped to the `text` group, so `boss` and `url` are single
lines, and the pattern is unanchored at both ends.  `tryCaptureAt` checks
whether the part of the pattern after `text` matches at position `p` (that
is, with `text = s[..p]`): eight upper-hex chars, the literal tag, a
non-empty line as `boss`, an optional newline, and the rest of that line as
`url` (greedy `.+`/`.*` never backtrack here because everything after `boss`
matches the empty string). -/
def tryCaptureAt (tag : CName) (s : CName) (p : Nat) : Option RawCaptures :=
  let rest := s.drop p
  let idPart := rest.take 8
  if idPart.length = 8 && idPart.all isHexUp then
    let rest2 := rest.drop 8
    if tag.isPrefixOf rest2 then
      let rest3 := rest2.drop tag.length
      let boss := rest3.takeWhile (fun c => c != '\n')
      if boss.isEmpty then none
      else
        let rest4 := rest3.drop boss.length
        let rest5 :=
          match rest4 with
          | '\n' :: t => t
          | _ => rest4
        let url := rest5.takeWhile (fun c => c != '\n')
        some { text := s.take p, id := idPart, boss := boss, url := url }
    else none
  else none

/-- `Regex::captures` for a raid regex: the search is unanchored, but the
leading greedy `(?s).*` makes a match starting at 0 exist whenever any match
exists, and under leftmost-first semantics the `text` capture is the longest
prefix whose remainder matches — so the first success scanning `p`
downwards. -/
def captureWith (tag : CName) (s : CName) : Option RawCaptures :=
  (List.range (s.length + 1)).reverse.findSome? (tryCaptureAt tag s)

/-- `REGEX_JAPANESE.captures(..).or_else(|| REGEX_ENGLISH.captures(..))`
with the language tag attached. -/
def combinedCapture (s : CName) : Option (LanguageM × RawCaptures) :=
  match captureWith jaTag s with
  | some c => some (LanguageM.japanese, c)
  | none => (captureWith enTag s).map (fun c => (LanguageM.english, c))

/-- The image-URL gate `^https?://[^ ]+$`. -/
def urlMatch (u : CName) : Bool :=
  match
    (if ("http://".data).isPrefixOf u then some (u.drop 7)
     else if ("https://".data).isPrefixOf u then some (u.drop 8)
     else none) with
  | none => false
  | some rest => !rest.isEmpty && rest.all (fun c => c != ' ')

/-- Rust `char::is_whitespace` (the Unicode `White_Space` property) for the
characters that can occur around the captures; both the embedding and the
spec-side statements use the same predicate, so the exact extent of the
exotic-whitespace set does not influence any claim. -/
def isWsChar (c : Char) : Bool :=
  c == ' ' || c == '\t' || c == '\n' || c == '\r'
    || c == Char.ofNat 0x0B || c == Char.ofNat 0x0C
    || c == Char.ofNat 0x85 || c == Char.ofNat 0xA0
    || c == Char.ofNat 0x3000

/-- `str::trim`. -/
def trimChars (t : CName) : CName :=
  ((t.dropWhile isWsChar).reverse.dropWhile isWsChar).reverse

/-- `str::contains(needle)` (substring search). -/
def containsStr (hay needle : CName) : Bool :=
  (List.range (hay.length + 1)).any (fun p => needle.isPrefixOf (hay.drop p))

/-- The named entities understood by the entity decoder.  The `escaper`
crate's table is larger; only the spelling of decoded boss/user text depends
on it, never the accept/reject decision, so the common entities suffice
here. -/
def entityVal (ent : List Char) : Option Char :=
  match ent with
  | ['a', 'm', 'p'] => some '&'
  | ['l', 't'] => some '<'
  | ['g', 't'] => some '>'
  | ['q', 'u', 'o', 't'] => some '"'
  | '#' :: ds =>
    if ds ≠ [] && ds.all (fun c => c.isDigit) && digitsVal ds < 0xD800 then
      some (Char.ofNat (digitsVal ds))
    else none
  | _ => none

/-- `escaper::decode_html_sloppy`: replace well-formed `&name;` entities,
leave everything else (including stray `&`) untouched. -/
def htmlDecodeChars (l : List Char) : List Char :=
  match l with
  | [] => []
  | '&' :: rest =>
    let ent := rest.takeWhile (fun c => c != ';')
    match _hrest : rest.drop ent.length with
    | ';' :: tail =>
      match entityVal ent with
      | some c => c :: htmlDecodeChars tail
      | none => '&' :: htmlDecodeChars rest
    | _ => '&' :: htmlDecodeChars rest
  | c :: rest => c :: htmlDecodeChars rest
termination_by l.length
decreasing_by
  · have hlen : (rest.drop ent.length).length = tail.length + 1 := by
      rw [_hrest]; rfl
    have := List.length_drop ent.length rest
    simp only [List.length_cons]
    omega
  · simp
  · simp
  · simp

/-- `html_decode` from `src/twitter/parse.rs`: only decode when a `&` is
present. -/
def htmlDecode (t : CName) : CName :=
  if t.contains '&' then htmlDecodeChars t else t

/-- `TextParts`, the output of `parse_text`. -/
structure TextPartsM where
  language : LanguageM
  text : Option CName
  raid_id : CName
  boss_name : CName
deriving DecidableEq

/-- `parse_text` from `src/twitter/parse.rs`. -/
def parseText (s : CName) : Option TextPartsM :=
  match combinedCapture s with
  | none => none
  | some (lang, c) =>
    let bossRaw := trimChars c.boss
    if containsStr bossRaw ("http".data)
        || (!c.url.isEmpty && !urlMatch c.url) then none
    else
      let t := trimChars c.text
      some
        { language := lang
          text := if t.isEmpty then none else some (htmlDecode t)
          raid_id := trimChars c.id
          boss_name := htmlDecode bossRaw }

/-- `impl TryFrom<Tweet> for Raid` from `src/twitter/parse.rs` (the `Err`
case is `none`). -/
def raidFromTweet (tw : TweetM) : Option RaidM :=
  if tw.source ≠ granblueSource then none
  else
    match parseText tw.text with
    | none => none
    | some parsed =>
      let user_image :=
        if tw.user.default_profile_image
            || containsStr tw.user.profile_image_url_https
              ("default_profile".data)
        then none
        else some tw.user.profile_image_url_https
      some
        { id := parsed.raid_id
          tweet_id := tw.id
          boss_name := parsed.boss_name
          user_name := tw.user.screen_name
          user_image := user_image
          text := parsed.text
          created_at := tw.created_at
          language := parsed.language
          image_url := tw.entities.media }

/-! ## Relay pagination (`src/graphql/relay.rs`) -/

/-- `PageInfo`. -/
structure PageInfoM where
  has_previous_page : Bool
  has_next_page : Bool
  start_cursor : Option String
  end_cursor : Option String
deriving DecidableEq

def errFirstLastMissing : String := "Either `first` or `last` must be specified"

def errFirstLastBoth : String := "Only one of `first` or `last` should be specified"

def errFirstLastNegative : String := "`first` and `last` must be non-negative"

/-- The local `enum FirstOrLast` of `Cursor::paginate` (values already cast
to `usize`). -/
inductive FirstOrLast
  | first (n : Nat)
  | last (n : Nat)
deriving DecidableEq

/-- The argument-validation `match (first, last)` at the top of
`Cursor::paginate`. -/
def validateFirstLast (first? last? : Option Int) :
    Except String FirstOrLast :=
  match first?, last? with
  | none, none => Except.error errFirstLastMissing
  | some _, some _ => Except.error errFirstLastBoth
  | some f, none =>
    if 0 ≤ f then Except.ok (FirstOrLast.first f.toNat)
    else Except.error errFirstLastNegative
  | none, some l =>
    if 0 ≤ l then Except.ok (FirstOrLast.last l.toNat)
    else Except.error errFirstLastNegative

/-- The `after` scan: consume edges (counting them) until the cursor
matches, inclusively; if it never matches the iterator is exhausted. -/
def afterScan (mtc : κ → α → Bool) (c : κ) : List α → Nat × List α
  | [] => (0, [])
  | e :: es =>
    if mtc c e then (1, es)
    else
      let (k, r) := afterScan mtc c es
      (k + 1, r)

/-- The `First(count), Some(before)` loop: take while fewer than `count`
taken and the edge does not match `before`. -/
def takeFirstBefore (mtc : κ → α → Bool) (b : κ) (count : Nat) :
    Nat → List α → List α
  | _, [] => []
  | taken, e :: es =>
    if taken < count && !mtc b e then
      e :: takeFirstBefore mtc b count (taken + 1) es
    else []

/-- The optional `after` scan at the top of the pagination body. -/
def scanAfter (mtc : κ → α → Bool) (after? : Option κ) (edges : List α) :
    Nat × List α :=
  match after? with
  | none => (0, edges)
  | some c => afterScan mtc c edges

/-- The `match (first_or_last, before)` of `Cursor::paginate`, returning the
output edges together with the final `skipped` counter. -/
def stageOf (mtc : κ → α → Bool) (fl : FirstOrLast) (before? : Option κ)
    (rest : List α) (remaining skipped0 : Nat) : List α × Nat :=
  match fl, before? with
  | FirstOrLast.first n, none => (rest.take n, skipped0)
  | FirstOrLast.first n, some b =>
    (takeFirstBefore mtc b n 0 rest, skipped0)
  | FirstOrLast.last n, none =>
    let skipN := if n > remaining then 0 else remaining - n
    (rest.drop skipN, skipped0 + skipN)
  | FirstOrLast.last n, some b =>
    let out0 := rest.takeWhile (fun e => !mtc b e)
    if out0.length ≤ n then (out0, skipped0)
    else (out0.drop (out0.length - n), skipped0 + (out0.length - n))

/-- `Cursor::paginate` from `src/graphql/relay.rs`, with the cursor
operations (`matches_edge`, `from_edge`, `to_scalar_string`) abstracted as
parameters and `map_fn` the identity.  `total` is the caller-supplied
`total_edges_length`; `remaining_edges = total - skipped` is `usize`
arithmetic, which every caller keeps non-negative by passing the true edge
count. -/
def paginate (mtc : κ → α → Bool) (fromEdge : α → κ)
    (toScalar : κ → String) (edges : List α) (total : Nat)
    (first? : Option Int) (after? : Option κ) (last? : Option Int)
    (before? : Option κ) : Except String (List α × PageInfoM) :=
  match validateFirstLast first? last? with
  | Except.error e => Except.error e
  | Except.ok fl =>
    let scanned := scanAfter mtc after? edges
    let stage :=
      stageOf mtc fl before? scanned.2 (total - scanned.1) scanned.1
    let out := stage.1
    let skipped := stage.2
    Except.ok (out,
      { has_previous_page := decide (0 < skipped)
        has_next_page := decide (out.length + skipped < total)
        start_cursor := out.head?.map (fun e => toScalar (fromEdge e))
        end_cursor := out.getLast?.map (fun e => toScalar (fromEdge e)) })

/-- Specification-side count of the edges consumed by the `after` scan
(spec §4.2): the index of the first matching edge plus one, or the whole
length when the cursor matches nothing; zero without `after`. -/
def afterSkipSpec (mtc : κ → α → Bool) (after? : Option κ)
    (edges : List α) : Nat :=
  match after? with
  | none => 0
  | some c =>
    match edges.findIdx? (mtc c) with
    | some i => i + 1
    | none => edges.length

/-- Specification-side output slice, as a function of the post-scan
remainder `rest`. -/
def outSpec (mtc : κ → α → Bool) (fl : FirstOrLast)
    (before? : Option κ) (rest : List α) : List α :=
  match fl, before? with
  | FirstOrLast.first n, none => rest.take n
  | FirstOrLast.first n, some b =>
    (rest.takeWhile (fun e => !mtc b e)).take n
  | FirstOrLast.last n, none => rest.drop (rest.length - n)
  | FirstOrLast.last n, some b =>
    let w := rest.takeWhile (fun e => !mtc b e)
    w.drop (w.length - n)

/-- Specification-side count of edges dropped from the front of the
remainder by the `last` truncation (zero for `first`). -/
def frontDropSpec (mtc : κ → α → Bool) (fl : FirstOrLast)
    (before? : Option κ) (rest : List α) : Nat :=
  match fl, before? with
  | FirstOrLast.first _, _ => 0
  | FirstOrLast.last n, none => rest.length - n
  | FirstOrLast.last n, some b =>
    (rest.takeWhile (fun e => !mtc b e)).length - n

/-- Specification-side total `skipped`: the `after`-scan count plus the
front drop of the `last` truncation. -/
def skipSpec (mtc : κ → α → Bool) (fl : FirstOrLast) (after? : Option κ)
    (before? : Option κ) (edges : List α) : Nat :=
  afterSkipSpec mtc after? edges
    + frontDropSpec mtc fl before? (edges.drop (afterSkipSpec mtc after? edges))

/-- Specification-side output of `paginate`. -/
def pageOutSpec (mtc : κ → α → Bool) (fl : FirstOrLast) (after? : Option κ)
    (before? : Option κ) (edges : List α) : List α :=
  outSpec mtc fl before? (edges.drop (afterSkipSpec mtc after? edges))

/-- Specification-side `PageInfo` of `paginate` over the full edge list:
`has_previous_page = skipped > 0`,
`has_next_page = |out| + skipped < |edges|`, and the boundary cursors of the
output. -/
def pageInfoSpec (mtc : κ → α → Bool) (fromEdge : α → κ)
    (toScalar : κ → String) (fl : FirstOrLast) (after? : Option κ)
    (before? : Option κ) (edges : List α) : PageInfoM :=
  { has_previous_page := decide (0 < skipSpec mtc fl after? before? edges)
    has_next_page :=
      decide ((pageOutSpec mtc fl after? before? edges).length
        + skipSpec mtc fl after? before? edges < edges.length)
    start_cursor := (pageOutSpec mtc fl after? before? edges).head?.map
      (fun e => toScalar (fromEdge e))
    end_cursor := (pageOutSpec mtc fl after? before? edges).getLast?.map
      (fun e => toScalar (fromEdge e)) }

/-! ## Base58 and the postcard varint (`bs58` and `postcard` crates, as used
by `Cursor::to_scalar_string`/`from_scalar_string` in `src/graphql/relay.rs`
and by `NodeId` in `src/model.rs`) -/

/-- The Bitcoin base58 alphabet used by `bs58`. -/
def b58Alphabet : List Char :=
  "123456789ABCDEFGHJKLMNPQRSTUVWXYZabcdefghijkmnopqrstuvwxyz".data

def b58Char (d : Nat) : Char := b58Alphabet.getD d '?'

/-- The index of a character in the alphabet (`None` = invalid character,
which makes `bs58` decoding fail). -/
def b58Index (c : Char) : Option Nat :=
  b58Alphabet.findIdx? (fun x => x == c)

/-- The little-endian base-`b` digits of `n` (no leading zero digits; `0`
has no digits). -/
def natDigitsLE (b n : Nat) : List Nat :=
  if _h : b ≤ 1 ∨ n = 0 then [] else (n % b) :: natDigitsLE b (n / b)
termination_by n
decreasing_by
  push_neg at _h
  exact Nat.div_lt_self (Nat.pos_of_ne_zero _h.2) (by omega)

/-- The value of a little-endian digit list. -/
def valLE (b : Nat) (l : List Nat) : Nat :=
  l.foldr (fun d a => d + b * a) 0

/-- The value of a big-endian digit list, exactly as the `bs58` encode and
decode loops accumulate it. -/
def beVal (b : Nat) (l : List Nat) : Nat :=
  l.foldl (fun a d => a * b + d) 0

/-- `Option`-valued map, modelling a decoding loop that stops at the first
invalid element. -/
def mapOpt (f : α → Option β) : List α → Option (List β)
  | [] => some []
  | x :: l =>
    match f x, mapOpt f l with
    | some y, some ys => some (y :: ys)
    | _, _ => none

/-- `bs58::encode`: the input bytes as a big-endian base-256 number,
re-written in base 58 (big-endian, no leading zero digits), with one `'1'`
per leading zero byte. -/
def bsEncode (bytes : List Nat) : List Char :=
  List.replicate ((bytes.takeWhile (fun b => b == 0)).length) '1'
    ++ ((natDigitsLE 58 (beVal 256 bytes)).reverse.map b58Char)

/-- `bs58::decode`: fail on any character outside the alphabet; otherwise
the digits as a big-endian base-58 number re-written in base 256
(big-endian, no leading zero bytes), with one zero byte per leading `'1'`
of the input. -/
def bsDecode (s : List Char) : Option (List Nat) :=
  match mapOpt b58Index s with
  | none => none
  | some digits =>
    some (List.replicate ((s.takeWhile (fun c => c == '1')).length) 0
      ++ (natDigitsLE 256 (beVal 58 digits)).reverse)

/-- The unsigned LEB128 varint that `postcard` uses for `u64`: seven bits
per byte, least-significant group first, high bit = continuation. -/
def varintEncode (n : Nat) : List Nat :=
  if n < 128 then [n] else (n % 128 + 128) :: varintEncode (n / 128)
termination_by n
decreasing_by
  exact Nat.div_lt_self (by omega) (by omega)

/-- The varint decoder (`postcard` additionally caps a `u64` varint at ten
bytes and rejects values outside `u64`; the range check lives in
`tweetCursorFromScalar` below, and a canonical encoding of a `u64` never
exceeds ten bytes). -/
def varintDecode : List Nat → Option (Nat × List Nat)
  | [] => none
  | b :: rest =>
    if b < 128 then some (b, rest)
    else
      match varintDecode rest with
      | some (n, r) => some (n * 128 + (b - 128), r)
      | none => none

/-- `TweetCursor` from `src/graphql/relay.rs`. -/
structure TweetCursorM where
  tweet_id : Nat
deriving DecidableEq

/-- `Cursor::to_scalar_string`: base58 over the postcard bytes (a one-field
struct serializes as its field, a `u64` as a varint). -/
def tweetCursorToScalar (c : TweetCursorM) : List Char :=
  bsEncode (varintEncode c.tweet_id)

/-- `Cursor::from_scalar_string`: base58-decode, then postcard-deserialize;
`postcard::from_bytes` ignores trailing bytes and rejects varints beyond
`u64`. -/
def tweetCursorFromScalar (s : List Char) : Option TweetCursorM :=
  match bsDecode s with
  | none => none
  | some bytes =>
    match varintDecode bytes with
    | none => none
    | some (n, _rest) =>
      if n < 2 ^ 64 then some { tweet_id := n } else none

/-! ## NodeId (`src/model.rs`) -/

/-- `NodeId` (the code currently has only the `Boss` variant); the name is
kept as its UTF-8 bytes, since the codec works on bytes. -/
inductive NodeIdM
  | boss (name : List Nat)
deriving DecidableEq

/-- The UTF-8 bytes of `"boss:"`. -/
def bossTagBytes : List Nat := [98, 111, 115, 115, 58]

/-- The UTF-8 bytes of `"boss"`. -/
def bossWordBytes : List Nat := [98, 111, 115, 115]

/-- The byte-at-a-time UTF-8 acceptor behind `validUtf8`: `pending` is the
number of continuation bytes still owed, and `lo`/`hi` bound the next byte
(the first continuation byte of a sequence carries the RFC 3629 restricted
ranges that exclude overlong forms, surrogates, and code points above
U+10FFFF; later ones are plain `80..BF`). -/
def utf8Valid : List Nat → Nat → Nat → Nat → Bool
  | [], pending, _, _ => pending == 0
  | b :: rest, 0, _, _ =>
    if b < 128 then utf8Valid rest 0 0 0
    else if b < 194 then false
    else if b < 224 then utf8Valid rest 1 128 191
    else if b = 224 then utf8Valid rest 2 160 191
    else if b = 237 then utf8Valid rest 2 128 159
    else if b < 240 then utf8Valid rest 2 128 191
    else if b = 240 then utf8Valid rest 3 144 191
    else if b < 244 then utf8Valid rest 3 128 191
    else if b = 244 then utf8Valid rest 3 128 143
    else false
  | b :: rest, pending + 1, lo, hi =>
    if lo ≤ b && b ≤ hi then utf8Valid rest pending 128 191
    else false

/-- The `str::from_utf8` validity check. -/
def validUtf8 (l : List Nat) : Bool := utf8Valid l 0 0 0

/-- `NodeId::to_string`: base58 over the UTF-8 bytes of `"boss:" + name`. -/
def nodeIdToString : NodeIdM → List Char
  | NodeIdM.boss name => bsEncode (bossTagBytes ++ name)

/-- `impl FromStr for NodeId`: base58-decode, `str::from_utf8`, then
`splitn(2, ':')` — in valid UTF-8 the byte 58 occurs exactly at `':'`
characters, so the split is the byte-level split at the first 58 — and the
first part must be `"boss"`; every failure is `Err(())`. -/
def nodeIdFromStr (s : List Char) : Option NodeIdM :=
  match bsDecode s with
  | none => none
  | some bytes =>
    if validUtf8 bytes then
      let before := bytes.takeWhile (fun b => b != 58)
      match bytes.drop before.length with
      | 58 :: after =>
        if before = bossWordBytes then some (NodeIdM.boss after) else none
      | _ => none
    else none

/-! ## Image-hash worker (`src/image_hash/stream.rs`) -/

/-- The worker's `State`: whether an image hash is still being fetched. -/
inductive WHashState
  | pending
  | success (h : Int)
  | failure
deriving DecidableEq

/-- The events the worker's shared state reacts to: a `(boss_name, uri)`
request reaching the intake loop (the uri plays no role in the control
flow), or an in-flight fetch future finishing with a result (`none` =
fetch/decode error). -/
inductive WEvent
  | req (n : CName)
  | complete (n : CName) (res : Option Int)
deriving DecidableEq

/-- What one event does, as observable from outside: a duplicate request
dropped (`continue` under `Pending`), a cached success synthesized
downstream, a fetch future scheduled — the only action that invokes the
hasher — or a completion storing its outcome. -/
inductive WAction
  | dropped
  | cached (h : Int)
  | scheduled
  | completed
deriving DecidableEq

/-- The shared state: the `requested` map (`DashMap<BossName, State>`) and,
as auxiliary bookkeeping for the single-flight invariant, the number of
fetch futures in flight per name. -/
structure WorkerState where
  cache : List (CName × WHashState)
  inflight : List (CName × Nat)
deriving DecidableEq

def wCacheGet : List (CName × WHashState) → CName → Option WHashState
  | [], _ => none
  | p :: rest, n => if p.1 = n then some p.2 else wCacheGet rest n

def wCachePut (assoc : List (CName × WHashState)) (n : CName)
    (v : WHashState) : List (CName × WHashState) :=
  match assoc with
  | [] => [(n, v)]
  | p :: rest => if p.1 = n then (n, v) :: rest else p :: wCachePut rest n v

def inflightOf (l : List (CName × Nat)) (n : CName) : Nat :=
  (lookupIdx l n).getD 0

/-- One transition of the worker.  The `req` arm is the body of the intake
`while let` in `stream` (`Pending` → drop, `Success` → forward the cached
value, `Failure` or absent → store `Pending` and schedule a fetch); the
`complete` arm is the tail of a scheduled fetch future (store `Success` or
`Failure`, yield downstream). -/
def wStep (s : WorkerState) (e : WEvent) : WorkerState × WAction :=
  match e with
  | WEvent.req n =>
    match wCacheGet s.cache n with
    | some WHashState.pending => (s, WAction.dropped)
    | some (WHashState.success h) => (s, WAction.cached h)
    | some WHashState.failure =>
      ({ cache := wCachePut s.cache n WHashState.pending
         inflight := updateAssoc s.inflight n (inflightOf s.inflight n + 1) },
       WAction.scheduled)
    | none =>
      ({ cache := wCachePut s.cache n WHashState.pending
         inflight := updateAssoc s.inflight n (inflightOf s.inflight n + 1) },
       WAction.scheduled)
  | WEvent.complete n res =>
    ({ cache := wCachePut s.cache n
        (match res with
         | some h => WHashState.success h
         | none => WHashState.failure)
       inflight := updateAssoc s.inflight n (inflightOf s.inflight n - 1) },
     WAction.completed)

/-- A completion event is only possible for a fetch actually in flight. -/
def wGuard (s : WorkerState) : WEvent → Bool
  | WEvent.complete n _ => decide (0 < inflightOf s.inflight n)
  | WEvent.req _ => true

/-- An event sequence is admissible when every completion belongs to a fetch
that is actually in flight (each scheduled future completes exactly once,
and only scheduled ones complete). -/
def wAdmissible : WorkerState → List WEvent → Bool
  | _, [] => true
  | s, e :: es => wGuard s e && wAdmissible (wStep s e).1 es

def wRun : WorkerState → List WEvent → WorkerState
  | s, [] => s
  | s, e :: es => wRun (wStep s e).1 es

/-- The actions produced while running an event list. -/
def wLog : WorkerState → List WEvent → List (WEvent × WAction)
  | _, [] => []
  | s, e :: es => (e, (wStep s e).2) :: wLog (wStep s e).1 es

def initWorker : WorkerState := { cache := [], inflight := [] }

/-- The single-flight invariant: never more than one fetch per name, and a
fetch is in flight exactly while the recorded state is `Pending`. -/
def WInv (s : WorkerState) : Prop :=
  ∀ n, inflightOf s.inflight n ≤ 1 ∧
    (inflightOf s.inflight n = 1 ↔ wCacheGet s.cache n = some WHashState.pending)

/-! ## Concrete states used by witnesses and counterexamples -/

/-- Build a boss entry with no images. -/
def mkEntry (nm : LangStringM) (hash : Option Int) (lvl : Option Int)
    (seen : Int) (hist : List RaidM) (bid : Nat) : BossEntryM :=
  { boss :=
      { name := nm
        image := { en := none, ja := none }
        level := lvl
        last_seen_at := seen
        image_hash := hash }
    history := hist
    broadcastId := bid }

def nameA : CName := ['A']

def nameB : CName := ['B']

/-- Events of the C8 witness: a request schedules a fetch, its completion
succeeds with hash 5, a second request is served from the cache. -/
def wEventsEx : List WEvent :=
  [WEvent.req nameA, WEvent.complete nameA (some 5), WEvent.req nameA]

def nameJ : CName := ['J']

/-- A minimal raid for the boss called `bn`. -/
def raidAt (bn : CName) (lang : LanguageM) (t : Int) (url : Option CName) :
    RaidM :=
  { id := []
    tweet_id := 1
    user_name := []
    user_image := none
    boss_name := bn
    created_at := t
    text := none
    language := lang
    image_url := url }

/-- An English-only entry with no image hash. -/
def entryEnA : BossEntryM :=
  mkEntry { en := some nameA, ja := none } none none 0
    [raidAt nameA LanguageM.english 2 none, raidAt nameA LanguageM.english 1 none] 0

/-- A Japanese-only entry carrying image hash 7. -/
def entryJaJ : BossEntryM :=
  mkEntry { en := none, ja := some nameJ } (some 7) none 3
    [raidAt nameJ LanguageM.japanese 4 none, raidAt nameJ LanguageM.japanese 3 none] 1

/-- An entry carrying both an English and a Japanese name, with hash 7. -/
def entryEnBJaJ : BossEntryM :=
  mkEntry { en := some nameB, ja := some nameJ } (some 7) none 3 [] 1

/-- A state in which the matched entry has an English name of its own, so the
discarded entry's English name keeps its stale binding after the merge. -/
def stateC1cex : HandlerState :=
  { historySize := 2
    store := [entryEnA, entryEnBJaJ]
    index := [(nameA, 0), (nameB, 1), (nameJ, 1)] }

/-- A state with one English-only and one Japanese-only entry, ready to
merge. -/
def stateMergeEx : HandlerState :=
  { historySize := 2
    store := [entryEnA, entryJaJ]
    index := [(nameA, 0), (nameJ, 1)] }

/-- A state with a single registered boss. -/
def statePushEx : HandlerState :=
  { historySize := 2
    store := [entryEnA]
    index := [(nameA, 0)] }

/-- A tweet from the game app whose boss line carries a level beyond the
`i16` range.  The parser accepts it; building the `Boss` panics. -/
def overflowTweet : TweetM :=
  { id := 99
    created_at := 0
    text := "ABCD1234 :参戦ID\n参加者募集！\nLv99999 テスト".data
    user :=
      { id := 1
        screen_name := "walfieee".data
        default_profile_image := false
        profile_image_url_https := "https://example.com/p.png".data }
    entities := { media := none }
    source := granblueSource }

/-! ## Association-list and store lemmas -/

theorem lookupIdx_updateAssoc (idx : List (CName × Nat)) (n : CName) (k : Nat)
    (m : CName) :
    lookupIdx (updateAssoc idx n k) m =
      if m = n then some k else lookupIdx idx m := by
  induction idx with
  | nil =>
    by_cases h : m = n
    · subst h; simp [updateAssoc, lookupIdx]
    · have h' : ¬(n = m) := fun hc => h hc.symm
      simp [updateAssoc, lookupIdx, h, h']
  | cons p rest ih =>
    by_cases hp : p.1 = n
    · by_cases h : m = n
      · subst h; simp [updateAssoc, hp, lookupIdx]
      · have h' : ¬(n = m) := fun hc => h hc.symm
        simp [updateAssoc, hp, lookupIdx, h, h']
    · by_cases hpm : p.1 = m
      · have h : ¬(m = n) := by rw [← hpm]; exact hp
        simp [updateAssoc, hp, lookupIdx, h, hpm]
      · simp [updateAssoc, hp, lookupIdx, hpm, ih]

theorem lookupIdx_bindKeys_notmem (ks : List CName) (idx : List (CName × Nat))
    (k : Nat) {n : CName} (hn : n ∉ ks) :
    lookupIdx (bindKeys idx ks k) n = lookupIdx idx n := by
  induction ks generalizing idx with
  | nil => rfl
  | cons a ks ih =>
    have hna : n ≠ a := by intro h; exact hn (by simp [h])
    have hnk : n ∉ ks := by intro h; exact hn (by simp [h])
    show lookupIdx (bindKeys (updateAssoc idx a k) ks k) n = _
    rw [ih _ hnk, lookupIdx_updateAssoc, if_neg hna]

theorem lookupIdx_bindKeys_mem (ks : List CName) (idx : List (CName × Nat))
    (k : Nat) {n : CName} (hn : n ∈ ks) :
    lookupIdx (bindKeys idx ks k) n = some k := by
  induction ks generalizing idx with
  | nil => cases hn
  | cons a ks ih =>
    show lookupIdx (bindKeys (updateAssoc idx a k) ks k) n = some k
    by_cases hk : n ∈ ks
    · exact ih _ hk
    · have hna : n = a := by
        rcases List.mem_cons.mp hn with h | h
        · exact h
        · exact absurd h hk
      rw [lookupIdx_bindKeys_notmem ks _ k hk, lookupIdx_updateAssoc,
        if_pos hna]

theorem bossRef_some {s : HandlerState} {n : CName} {i : Nat} {e : BossEntryM}
    (h : bossRef s n = some (i, e)) :
    lookupIdx s.index n = some i ∧ s.store[i]? = some e := by
  unfold bossRef at h
  split at h
  · cases h
  · rename_i j heq
    split at h
    · cases h
    · rename_i e' heq2
      cases h
      exact ⟨heq, heq2⟩

theorem bossRef_insertEntry_mem (s : HandlerState) (e : BossEntryM) {n : CName}
    (hn : n ∈ e.boss.name.keys) :
    bossRef (insertEntry s e) n = some (s.store.length, e) := by
  unfold bossRef insertEntry
  simp only [lookupIdx_bindKeys_mem _ _ _ hn, List.getElem?_concat_length]

theorem lookupIdx_insertEntry_notmem (s : HandlerState) (e : BossEntryM)
    {n : CName} (hn : n ∉ e.boss.name.keys) :
    lookupIdx (insertEntry s e).index n = lookupIdx s.index n :=
  lookupIdx_bindKeys_notmem _ _ _ hn

theorem store_insertEntry_lt (s : HandlerState) (e : BossEntryM) {k : Nat}
    (hk : k < s.store.length) :
    (insertEntry s e).store[k]? = s.store[k]? := by
  unfold insertEntry
  simp [List.getElem?_append, hk]

/-! ## Ring-buffer and sort lemmas -/

theorem take_cons_take (q : List RaidM) (x : RaidM) (cap m : Nat)
    (hm : m ≤ cap) :
    (x :: q.take (cap - 1)).take m = (x :: q).take m := by
  cases m with
  | zero => simp
  | succ m' =>
    simp only [List.take_succ_cons, List.take_take]
    have : m' ⊓ (cap - 1) = m' := Nat.min_eq_left (by omega)
    rw [this]

theorem foldl_ringPush (cap : Nat) (hcap : 0 < cap) :
    ∀ (l q : List RaidM), q.length ≤ cap →
      l.foldl (ringPush cap) q = (l.reverse ++ q).take cap := by
  intro l
  induction l with
  | nil =>
    intro q hq
    simp [List.take_of_length_le hq]
  | cons x l ih =>
    intro q hq
    have h1 : (ringPush cap q x).length ≤ cap := by
      simp only [ringPush, List.length_cons, List.length_take]
      omega
    have step : List.foldl (ringPush cap) q (x :: l)
        = List.foldl (ringPush cap) (ringPush cap q x) l := rfl
    rw [step, ih _ h1]
    show (l.reverse ++ (x :: q.take (cap - 1))).take cap
        = ((x :: l).reverse ++ q).take cap
    rw [List.reverse_cons, List.append_assoc, List.singleton_append,
      List.take_append_eq_append_take, List.take_append_eq_append_take]
    rw [take_cons_take q x cap (cap - l.reverse.length) (Nat.sub_le _ _)]

theorem mem_insertByCreated {y r : RaidM} {l : List RaidM} :
    y ∈ insertByCreated r l ↔ y = r ∨ y ∈ l := by
  induction l with
  | nil => simp [insertByCreated]
  | cons x xs ih =>
    simp only [insertByCreated]
    split
    · simp only [List.mem_cons, ih]
      tauto
    · simp only [List.mem_cons]

/-- Sortedness (ascending by `created_at`) as a pairwise predicate. -/
def SortedAsc (l : List RaidM) : Prop :=
  l.Pairwise (fun a b => a.created_at ≤ b.created_at)

theorem sortedAsc_insertByCreated (r : RaidM) {l : List RaidM}
    (h : SortedAsc l) : SortedAsc (insertByCreated r l) := by
  induction l with
  | nil => simp [insertByCreated, SortedAsc]
  | cons x xs ih =>
    rcases (List.pairwise_cons.mp h) with ⟨hx, hxs⟩
    show SortedAsc (if x.created_at ≤ r.created_at
      then x :: insertByCreated r xs else r :: x :: xs)
    split
    · rename_i hle
      refine List.pairwise_cons.mpr ⟨?_, ih hxs⟩
      intro y hy
      rcases mem_insertByCreated.mp hy with rfl | hy'
      · exact hle
      · exact hx y hy'
    · rename_i hgt
      refine List.pairwise_cons.mpr ⟨?_, h⟩
      intro y hy
      rcases List.mem_cons.mp hy with rfl | hy'
      · omega
      · have := hx y hy'
        omega

theorem sortedAsc_foldl_insert (l acc : List RaidM) (hacc : SortedAsc acc) :
    SortedAsc (l.foldl (fun a x => insertByCreated x a) acc) := by
  induction l generalizing acc with
  | nil => exact hacc
  | cons x l ih => exact ih _ (sortedAsc_insertByCreated x hacc)

theorem sortedAsc_sortByCreated (l : List RaidM) :
    SortedAsc (sortByCreated l) :=
  sortedAsc_foldl_insert l [] (by simp [SortedAsc])

theorem perm_insertByCreated (r : RaidM) (l : List RaidM) :
    (insertByCreated r l).Perm (r :: l) := by
  induction l with
  | nil => simp [insertByCreated]
  | cons x xs ih =>
    show (if x.created_at ≤ r.created_at
      then x :: insertByCreated r xs else r :: x :: xs).Perm (r :: x :: xs)
    split
    · exact (ih.cons x).trans (List.Perm.swap r x xs)
    · exact List.Perm.refl _

theorem perm_foldl_insert (l acc : List RaidM) :
    (l.foldl (fun a x => insertByCreated x a) acc).Perm (l ++ acc) := by
  induction l generalizing acc with
  | nil => simp
  | cons x l ih =>
    have h1 := ih (insertByCreated x acc)
    have h2 : (l ++ insertByCreated x acc).Perm (l ++ (x :: acc)) :=
      List.Perm.append_left l (perm_insertByCreated x acc)
    have h3 : (l ++ (x :: acc)).Perm (x :: (l ++ acc)) := List.perm_middle
    exact (h1.trans h2).trans h3

theorem perm_sortByCreated (l : List RaidM) : (sortByCreated l).Perm l := by
  have := perm_foldl_insert l []
  simpa [sortByCreated] using this

theorem length_sortByCreated (l : List RaidM) :
    (sortByCreated l).length = l.length :=
  (perm_sortByCreated l).length_eq

/-! ## C10: frame effect of `push` on an existing entry -/

/-- C10: for every `push(raid)` whose `boss_name` resolves to an existing
`BossEntry`, the entry's `boss.name`, `boss.level` and `boss.image_hash` are
unchanged, bindings for other names and other stored entries are unchanged,
and the only boss-field modification is setting `boss.image` for
`raid.language` when that side was absent and `raid.image_url` is present —
besides the history append and the `last_seen_at` store. -/
theorem push_existing_entry_frame (s : HandlerState) (r : RaidM) (i : Nat)
    (e : BossEntryM) (_hcap : 0 < s.historySize)
    (hres : bossRef s r.boss_name = some (i, e))
    (hkey : r.boss_name ∈ e.boss.name.keys) :
    ∃ s' j e', pushRaid s r = Except.ok s' ∧
      bossRef s' r.boss_name = some (j, e') ∧
      e'.boss.name = e.boss.name ∧
      e'.boss.level = e.boss.level ∧
      e'.boss.image_hash = e.boss.image_hash ∧
      e'.boss.image =
        (if (e.boss.image.get r.language).isNone && r.image_url.isSome
         then e.boss.image.set r.language r.image_url else e.boss.image) ∧
      e'.history = ringPush s.historySize e.history r ∧
      e'.boss.last_seen_at = r.created_at ∧
      (∀ n, n ∉ e.boss.name.keys →
        lookupIdx s'.index n = lookupIdx s.index n) ∧
      (∀ k, k ≠ i → k < s.store.length → s'.store[k]? = s.store[k]?) := by
  obtain ⟨hl, hs⟩ := bossRef_some hres
  have hi : i < s.store.length := (List.getElem?_eq_some.mp hs).1
  by_cases hc : ((e.boss.image.get r.language).isNone && r.image_url.isSome)
      = true
  · have hkey2 : r.boss_name ∈ (pushImageEntry s.historySize e r).boss.name.keys := by
      simpa [pushImageEntry, pushUpdatedEntry] using hkey
    refine ⟨insertEntry (setEntry s i (pushUpdatedEntry s.historySize e r))
        (pushImageEntry s.historySize e r),
      s.store.length, pushImageEntry s.historySize e r, ?_, ?_, ?_, ?_, ?_, ?_,
      ?_, ?_, ?_, ?_⟩
    · simp only [pushRaid, hres, hc, if_true]
    · have h2 := bossRef_insertEntry_mem
        (setEntry s i (pushUpdatedEntry s.historySize e r))
        (pushImageEntry s.historySize e r) hkey2
      simpa [setEntry, List.length_set] using h2
    · simp [pushImageEntry, pushUpdatedEntry]
    · simp [pushImageEntry, pushUpdatedEntry]
    · simp [pushImageEntry, pushUpdatedEntry]
    · rw [if_pos hc]
      simp [pushImageEntry, pushUpdatedEntry]
    · simp [pushImageEntry, pushUpdatedEntry]
    · simp [pushImageEntry, pushUpdatedEntry]
    · intro n hn
      have hn2 : n ∉ (pushImageEntry s.historySize e r).boss.name.keys := by
        simpa [pushImageEntry, pushUpdatedEntry] using hn
      exact lookupIdx_insertEntry_notmem _ _ hn2
    · intro k hk hklt
      have hklt' : k
          < (setEntry s i (pushUpdatedEntry s.historySize e r)).store.length := by
        simpa [setEntry, List.length_set] using hklt
      rw [store_insertEntry_lt _ _ hklt']
      show (s.store.set i _)[k]? = s.store[k]?
      exact List.getElem?_set_ne (fun hik => hk hik.symm)
  · refine ⟨setEntry s i (pushUpdatedEntry s.historySize e r), i,
      pushUpdatedEntry s.historySize e r, ?_, ?_, ?_, ?_, ?_, ?_, ?_, ?_, ?_, ?_⟩
    · simp [pushRaid, hres, hc]
    · simp [bossRef, setEntry, hl, List.getElem?_set_self hi]
    · simp [pushUpdatedEntry]
    · simp [pushUpdatedEntry]
    · simp [pushUpdatedEntry]
    · rw [if_neg (by simp [hc])]
      simp [pushUpdatedEntry]
    · simp [pushUpdatedEntry]
    · simp [pushUpdatedEntry]
    · intro n hn
      rfl
    · intro k hk hklt
      show (s.store.set i _)[k]? = s.store[k]?
      exact List.getElem?_set_ne (fun hik => hk hik.symm)

/-- Witness for C10 at a concrete single-boss state and raid. -/
theorem push_existing_entry_frame_witness :
    ∃ s' j e',
      pushRaid statePushEx (raidAt nameA LanguageM.english 5 (some ['u']))
        = Except.ok s' ∧
      bossRef s' nameA = some (j, e') ∧
      e'.boss.name = entryEnA.boss.name ∧
      e'.boss.image_hash = entryEnA.boss.image_hash := by
  obtain ⟨s', j, e', h1, h2, h3, _, h5, _⟩ :=
    push_existing_entry_frame statePushEx
      (raidAt nameA LanguageM.english 5 (some ['u'])) 0 entryEnA
      (by decide) (by decide) (by decide)
  exact ⟨s', j, e', h1, h2, h3, h5⟩

/-! ## C1: alias consistency after a merge -/

/-- C1 counterexample: a handler state satisfying every hypothesis of the
claim (an entry `E` under `boss_name` with no image hash, and a distinct
entry `E'` with `image_hash = Some(h)`, the same level and a different name)
in which, after `update_image_hash(boss_name, h)`, `boss` does NOT return
the merged entry for every name carried by either entry: the matched entry
here has an English name of its own, so the discarded entry's English name
`"A"` keeps its stale binding to the old entry. -/
theorem update_image_hash_merge_aliases_cex :
    entryEnA.boss.image_hash = none ∧
    entryEnBJaJ.boss.image_hash = some 7 ∧
    entryEnBJaJ.boss.level = entryEnA.boss.level ∧
    entryEnBJaJ.boss.name ≠ entryEnA.boss.name ∧
    bossRef stateC1cex nameA = some (0, entryEnA) ∧
    bossRef stateC1cex nameB = some (1, entryEnBJaJ) ∧
    nameA ∈ entryEnA.boss.name.keys ∧
    nameB ∈ entryEnBJaJ.boss.name.keys ∧
    bossRef (updateImageHash stateC1cex nameA 7) nameA
      ≠ bossRef (updateImageHash stateC1cex nameA 7) nameB := by
  decide

/-- C1 (amended): under the claim's hypotheses, `update_image_hash` installs
a single merged entry — name and image merged with the Japanese-named entry
(`keep`) winning, `image_hash = Some(h)`, `last_seen_at` the max — and
`boss(n)` returns that one entry, by identity, for every name carried by the
*merged* entry, i.e. `keep.name.merge(discard.name)`.  (A name carried only
by the discarded entry in a language side that `keep` also fills keeps its
old binding; that is the counterexample above.) -/
theorem update_image_hash_merge_aliases (s : HandlerState) (bn : CName)
    (h : Int) (i j : Nat) (e other keep discard : BossEntryM)
    (hres : bossRef s bn = some (i, e))
    (hnone : e.boss.image_hash = none)
    (hfind : findMatching s h e.boss.level e.boss.name = some (j, other))
    (hkeep : keep = if e.boss.name.ja.isSome then e else other)
    (hdisc : discard = if e.boss.name.ja.isSome then other else e) :
    ∃ M : BossEntryM,
      M.boss.name = keep.boss.name.merge discard.boss.name ∧
      M.boss.image = keep.boss.image.merge discard.boss.image ∧
      M.boss.image_hash = some h ∧
      M.boss.last_seen_at = max keep.boss.last_seen_at discard.boss.last_seen_at ∧
      M.broadcastId = keep.broadcastId ∧
      ∀ n, n ∈ (keep.boss.name.merge discard.boss.name).keys →
        bossRef (updateImageHash s bn h) n = some (s.store.length, M) := by
  subst hkeep hdisc
  have hstep : updateImageHash s bn h
      = insertEntry s (mergedEntryOf s.historySize h
          (if e.boss.name.ja.isSome then e else other)
          (if e.boss.name.ja.isSome then other else e)) := by
    simp only [updateImageHash, hres, hnone, Option.isSome_none,
      Bool.false_eq_true, if_false, hfind]
  refine ⟨mergedEntryOf s.historySize h
      (if e.boss.name.ja.isSome then e else other)
      (if e.boss.name.ja.isSome then other else e),
    rfl, rfl, rfl, rfl, rfl, ?_⟩
  intro n hn
  rw [hstep]
  exact bossRef_insertEntry_mem _ _ hn

/-- Witness for C1 at a two-entry state: an English-only entry `"A"` and a
Japanese-only entry `"J"` with hash 7 merge, and both names resolve to the
same new entry. -/
theorem update_image_hash_merge_aliases_witness :
    ∃ M : BossEntryM,
      M.boss.name = { en := some nameA, ja := some nameJ } ∧
      M.boss.image_hash = some 7 ∧
      bossRef (updateImageHash stateMergeEx nameA 7) nameA = some (2, M) ∧
      bossRef (updateImageHash stateMergeEx nameA 7) nameJ = some (2, M) := by
  obtain ⟨M, h1, _, h3, _, _, hall⟩ :=
    update_image_hash_merge_aliases stateMergeEx nameA 7 0 1 entryEnA
      entryJaJ entryJaJ entryEnA (by decide) (by decide) (by decide)
      (by decide) (by decide)
  refine ⟨M, ?_, h3, ?_, ?_⟩
  · rw [h1]; decide
  · have := hall nameA (by decide)
    simpa [stateMergeEx] using this
  · have := hall nameJ (by decide)
    simpa [stateMergeEx] using this

/-! ## C3: the merged history -/

/-- C3: after `update_image_hash` merges two entries, the merged entry's
history equals the `history_size` most recent elements of the union of the
two histories ordered by `created_at` (newest first in iteration order), for
every pair of mergeable entries and every positive `history_size`
(a zero capacity makes the Rust `CircularQueue` panic on push, long before a
merge could happen).  The extra conjuncts spell the spec reading out: the
length is capped at `history_size`, the result is newest-first, and its
elements come from the union of the two histories. -/
theorem update_image_hash_merge_history (s : HandlerState) (bn : CName)
    (h : Int) (i j : Nat) (e other keep discard : BossEntryM)
    (hcap : 0 < s.historySize)
    (hres : bossRef s bn = some (i, e))
    (hnone : e.boss.image_hash = none)
    (hfind : findMatching s h e.boss.level e.boss.name = some (j, other))
    (hkeep : keep = if e.boss.name.ja.isSome then e else other)
    (hdisc : discard = if e.boss.name.ja.isSome then other else e) :
    ∃ M : BossEntryM,
      (updateImageHash s bn h).store[s.store.length]? = some M ∧
      M.history = specMergedHistory s.historySize
        discard.history.reverse keep.history.reverse ∧
      M.history.length
        = min s.historySize (discard.history.length + keep.history.length) ∧
      M.history.Pairwise (fun a b => b.created_at ≤ a.created_at) ∧
      ∃ dropped, (M.history ++ dropped).Perm
        (discard.history ++ keep.history) := by
  have hstep : updateImageHash s bn h
      = insertEntry s (mergedEntryOf s.historySize h keep discard) := by
    simp only [updateImageHash, hres, hnone, Option.isSome_none,
      Bool.false_eq_true, if_false, hfind, ← hkeep, ← hdisc]
  have hhist : (mergedEntryOf s.historySize h keep discard).history
      = (sortByCreated (discard.history.reverse
          ++ keep.history.reverse)).reverse.take s.historySize := by
    show mergeHistories s.historySize discard.history keep.history = _
    unfold mergeHistories
    rw [foldl_ringPush s.historySize hcap _ [] (by simp)]
    simp
  refine ⟨mergedEntryOf s.historySize h keep discard, ?_, ?_, ?_, ?_, ?_⟩
  · rw [hstep]
    show (s.store ++ [_])[s.store.length]? = _
    exact List.getElem?_concat_length _ _
  · rw [hhist]; rfl
  · rw [hhist]
    simp [List.length_take, List.length_reverse, length_sortByCreated]
  · rw [hhist]
    refine List.Pairwise.sublist (List.take_sublist _ _) ?_
    rw [List.pairwise_reverse]
    exact sortedAsc_sortByCreated _
  · refine ⟨(sortByCreated (discard.history.reverse
      ++ keep.history.reverse)).reverse.drop s.historySize, ?_⟩
    rw [hhist, List.take_append_drop]
    exact ((List.reverse_perm _).trans (perm_sortByCreated _)).trans
      (List.Perm.append (List.reverse_perm _) (List.reverse_perm _))

/-- Witness for C3: merging the concrete entries `"A"` (raids at times 1, 2)
and `"J"` (raids at times 3, 4) with `history_size = 2` keeps the two most
recent raids. -/
theorem update_image_hash_merge_history_witness :
    ∃ M : BossEntryM,
      (updateImageHash stateMergeEx nameA
        7).store[stateMergeEx.store.length]? = some M ∧
      M.history = specMergedHistory 2 entryEnA.history.reverse
        entryJaJ.history.reverse ∧
      M.history = [raidAt nameJ LanguageM.japanese 4 none,
        raidAt nameJ LanguageM.japanese 3 none] := by
  obtain ⟨M, h1, h2, _⟩ :=
    update_image_hash_merge_history stateMergeEx nameA 7 0 1 entryEnA
      entryJaJ entryJaJ entryEnA (by decide) (by decide) (by decide)
      (by decide) (by decide) (by decide)
  refine ⟨M, h1, h2, ?_⟩
  rw [h2]
  decide

/-! ## C2: the tweet acceptance gate -/

theorem reject_guard_iff (a : Bool) (url : CName) (u : Bool) :
    ¬((a || (!url.isEmpty && !u)) = true)
      ↔ (a = false ∧ (url = [] ∨ u = true)) := by
  cases a <;> cases u <;> cases url <;> simp

theorem parseText_isSome (s : CName) :
    (parseText s).isSome = true ↔
      ∃ lang c, combinedCapture s = some (lang, c) ∧
        containsStr (trimChars c.boss) ("http".data) = false ∧
        (c.url = [] ∨ urlMatch c.url = true) := by
  cases hcap : combinedCapture s with
  | none =>
    simp only [parseText, hcap, Option.isSome_none, Bool.false_eq_true,
      false_iff]
    rintro ⟨lang, c, hc, -, -⟩
    cases hc
  | some lc =>
    obtain ⟨lang, c⟩ := lc
    by_cases hg : (containsStr (trimChars c.boss) ("http".data)
        || (!c.url.isEmpty && !urlMatch c.url)) = true
    · constructor
      · intro habs
        exfalso
        simp [parseText, hcap, hg] at habs
      · rintro ⟨lang', c', hc', hb, hu⟩
        obtain ⟨rfl, rfl⟩ : lang = lang' ∧ c = c' := by
          simpa [Prod.ext_iff] using hc'
        exact absurd hg ((reject_guard_iff _ _ _).mpr ⟨hb, hu⟩)
    · constructor
      · intro _
        obtain ⟨hb, hu⟩ := (reject_guard_iff _ _ _).mp hg
        exact ⟨lang, c, rfl, hb, hu⟩
      · intro _
        simp [parseText, hcap, hg]

/-- C2: converting a `Tweet` into a `Raid` succeeds exactly when the tweet's
`source` equals the Granblue game-app anchor string, the text matches the
Japanese or (else) the English raid regex, the trimmed `boss` capture does
not contain `"http"`, and the `url` capture is empty or matches
`^https?://[^ ]+$`; every other tweet is rejected. -/
theorem raid_from_tweet_acceptance (tw : TweetM) :
    (raidFromTweet tw).isSome = true ↔
      (tw.source = granblueSource ∧
       ∃ lang c, combinedCapture tw.text = some (lang, c) ∧
         containsStr (trimChars c.boss) ("http".data) = false ∧
         (c.url = [] ∨ urlMatch c.url = true)) := by
  constructor
  · intro h
    have hsrc : tw.source = granblueSource := by
      by_contra hns
      simp [raidFromTweet, hns] at h
    refine ⟨hsrc, ?_⟩
    rw [← parseText_isSome]
    cases hpt : parseText tw.text with
    | none => simp [raidFromTweet, hsrc, hpt] at h
    | some p => simp [hpt]
  · rintro ⟨hsrc, hrest⟩
    have hps : (parseText tw.text).isSome = true :=
      (parseText_isSome _).mpr hrest
    cases hpt : parseText tw.text with
    | none => rw [hpt] at hps; cases hps
    | some p => simp [raidFromTweet, hsrc, hpt]

/-! ## C9: a documented path that panics -/

/-- C9 (failing input): the tweet `overflowTweet` is accepted by the parser
— its boss line is `Lv99999 テスト` — but constructing the `Boss` for the
resulting raid panics: `parse_level`'s regex captures `99999`, and
`str::parse::<i16>()` overflows, so the
`.expect("Somehow failed to parse level")` fires.  This contradicts the
spec's `no panics on any documented path` and its `level: optional 16-bit
integer` reading, on which the claim is based. -/
theorem parse_level_overflow_panics :
    (raidFromTweet overflowTweet).map
        (fun r => (r.boss_name, bossFromRaid r))
      = some ("Lv99999 テスト".data,
          Except.error "Somehow failed to parse level") := by
  rfl

/-! ## C4 and C5: pagination -/

theorem afterScan_eq {α κ : Type} (mtc : κ → α → Bool) (c : κ)
    (edges : List α) :
    afterScan mtc c edges
      = (afterSkipSpec mtc (some c) edges,
         edges.drop (afterSkipSpec mtc (some c) edges)) := by
  induction edges with
  | nil => rfl
  | cons e es ih =>
    by_cases h : mtc c e = true
    · simp [afterScan, afterSkipSpec, List.findIdx?_cons, h]
    · rw [afterScan]
      simp only [h, Bool.false_eq_true, if_false]
      rw [ih]
      simp only [afterSkipSpec, List.findIdx?_cons, h, Bool.false_eq_true,
        if_false, List.findIdx?_succ]
      cases hfi : es.findIdx? (mtc c) with
      | none => simp [List.drop_length]
      | some i => simp [List.drop_succ_cons]

theorem scanAfter_eq {α κ : Type} (mtc : κ → α → Bool) (after? : Option κ)
    (edges : List α) :
    scanAfter mtc after? edges
      = (afterSkipSpec mtc after? edges,
         edges.drop (afterSkipSpec mtc after? edges)) := by
  cases after? with
  | none => simp [scanAfter, afterSkipSpec]
  | some c => exact afterScan_eq mtc c edges

theorem afterSkipSpec_le {α κ : Type} (mtc : κ → α → Bool)
    (after? : Option κ) (edges : List α) :
    afterSkipSpec mtc after? edges ≤ edges.length := by
  cases after? with
  | none => simp [afterSkipSpec]
  | some c =>
    simp only [afterSkipSpec]
    cases hfi : edges.findIdx? (mtc c) with
    | none => exact Nat.le_refl _
    | some i =>
      show i + 1 ≤ edges.length
      have := (List.findIdx?_eq_some_iff_findIdx_eq.mp hfi).1
      omega

theorem takeFirstBefore_eq {α κ : Type} (mtc : κ → α → Bool) (b : κ)
    (n : Nat) :
    ∀ (es : List α) (t : Nat),
      takeFirstBefore mtc b n t es
        = ((es.takeWhile (fun e => !mtc b e)).take (n - t)) := by
  intro es
  induction es with
  | nil => intro t; simp [takeFirstBefore]
  | cons e es ih =>
    intro t
    by_cases hm : mtc b e = true
    · simp [takeFirstBefore, List.takeWhile_cons, hm]
    · by_cases ht : t < n
      · have hcond : (decide (t < n) && !mtc b e) = true := by
          simp [ht, hm]
        show (if (decide (t < n) && !mtc b e) = true then
            e :: takeFirstBefore mtc b n (t + 1) es else []) = _
        rw [if_pos hcond, ih (t + 1), List.takeWhile_cons]
        have hnt : n - t = (n - (t + 1)) + 1 := by omega
        simp only [hm, Bool.not_false, Bool.false_eq_true, if_true, hnt,
          List.take_succ_cons]
      · have hcond : ¬((decide (t < n) && !mtc b e) = true) := by
          simp [ht]
        show (if (decide (t < n) && !mtc b e) = true then
            e :: takeFirstBefore mtc b n (t + 1) es else []) = _
        rw [if_neg hcond]
        have hnt : n - t = 0 := by omega
        rw [hnt]
        simp

theorem stageOf_eq {α κ : Type} (mtc : κ → α → Bool) (fl : FirstOrLast)
    (before? : Option κ) (rest : List α) (skipped0 : Nat) :
    stageOf mtc fl before? rest rest.length skipped0
      = (outSpec mtc fl before? rest,
         skipped0 + frontDropSpec mtc fl before? rest) := by
  cases fl with
  | first n =>
    cases before? with
    | none => simp [stageOf, outSpec, frontDropSpec]
    | some b =>
      simp [stageOf, outSpec, frontDropSpec, takeFirstBefore_eq]
  | last n =>
    cases before? with
    | none =>
      have hsk : (if n > rest.length then 0 else rest.length - n)
          = rest.length - n := by
        split <;> omega
      simp [stageOf, outSpec, frontDropSpec, hsk]
    | some b =>
      by_cases hle : (rest.takeWhile (fun e => !mtc b e)).length ≤ n
      · have h0 : (rest.takeWhile (fun e => !mtc b e)).length - n = 0 :=
          Nat.sub_eq_zero_of_le hle
      -- both components collapse
        simp [stageOf, outSpec, frontDropSpec, hle, h0]
      · simp [stageOf, outSpec, frontDropSpec, hle]

/-- C4 (amended): with `total = edges.len()` and valid arguments, `paginate`
returns the spec-side output slice together with
`has_previous_page = (skipped > 0)` and
`has_next_page = (out.len + skipped < L)`, where `skipped` counts BOTH the
edges consumed by the `after` scan (inclusive of the match, all of `L` when
the cursor matches nothing) AND the edges dropped from the front of the
remainder by the `last` truncation — not the scan alone, as the claim
stated.  When an `after` cursor matches no edge and the sequence is
non-empty, the output is empty, `has_previous_page = true`,
`has_next_page = false` and both boundary cursors are null. -/
theorem paginate_page_info {α κ : Type} (mtc : κ → α → Bool)
    (fromEdge : α → κ) (toScalar : κ → String) (edges : List α)
    (first? : Option Int) (after? : Option κ) (last? : Option Int)
    (before? : Option κ) (fl : FirstOrLast)
    (hfl : validateFirstLast first? last? = Except.ok fl) :
    (paginate mtc fromEdge toScalar edges edges.length first? after? last?
        before?
      = Except.ok (pageOutSpec mtc fl after? before? edges,
          pageInfoSpec mtc fromEdge toScalar fl after? before? edges)) ∧
    (∀ c, after? = some c → (∀ e ∈ edges, mtc c e = false) → edges ≠ [] →
      pageOutSpec mtc fl after? before? edges = [] ∧
      pageInfoSpec mtc fromEdge toScalar fl after? before? edges
        = { has_previous_page := true, has_next_page := false,
            start_cursor := none, end_cursor := none }) := by
  have hlen : (edges.drop (afterSkipSpec mtc after? edges)).length
      = edges.length - afterSkipSpec mtc after? edges :=
    List.length_drop _ _
  constructor
  · show (match validateFirstLast first? last? with
      | Except.error e => Except.error e
      | Except.ok fl => _) = _
    rw [hfl]
    show Except.ok _ = _
    rw [scanAfter_eq]
    have hstage := stageOf_eq mtc fl before?
      (edges.drop (afterSkipSpec mtc after? edges))
      (afterSkipSpec mtc after? edges)
    rw [← hlen]
    rw [hstage]
    rfl
  · intro c hc hall hne
    subst hc
    have hskipall : afterSkipSpec mtc (some c) edges = edges.length := by
      simp only [afterSkipSpec]
      rw [List.findIdx?_eq_none_iff.mpr hall]
    have hrest : edges.drop (afterSkipSpec mtc (some c) edges) = [] := by
      rw [hskipall, List.drop_length]
    have hout : pageOutSpec mtc fl (some c) before? edges = [] := by
      unfold pageOutSpec
      rw [hrest]
      cases fl with
      | first n => cases before? <;> simp [outSpec]
      | last n => cases before? <;> simp [outSpec]
    have hdrop : frontDropSpec mtc fl before?
        (edges.drop (afterSkipSpec mtc (some c) edges)) = 0 := by
      rw [hrest]
      cases fl with
      | first n => cases before? <;> simp [frontDropSpec]
      | last n => cases before? <;> simp [frontDropSpec]
    have hskip : skipSpec mtc fl (some c) before? edges = edges.length := by
      unfold skipSpec
      rw [hdrop, hskipall]
      omega
    refine ⟨hout, ?_⟩
    have hpos : 0 < edges.length := by
      cases edges with
      | nil => exact absurd rfl hne
      | cons e es => simp
    unfold pageInfoSpec
    rw [hout, hskip]
    simp only [List.length_nil, Nat.zero_add, List.head?_nil, List.getLast?_nil,
      Option.map_none, PageInfoM.mk.injEq]
    refine ⟨by simp [hpos], by simp, rfl, rfl⟩

/-- Witness for C4 at `first = 2` over `[0, 1, 2]`: output `[0, 1]`, a
previous page is absent and a next page present. -/
theorem paginate_page_info_witness :
    paginate (fun (c e : Nat) => c == e) (fun e => e) (fun c => toString c)
        [0, 1, 2] 3 (some 2) none none none
      = Except.ok (pageOutSpec (fun (c e : Nat) => c == e)
            (FirstOrLast.first 2) none none [0, 1, 2],
          pageInfoSpec (fun (c e : Nat) => c == e) (fun e => e)
            (fun c => toString c) (FirstOrLast.first 2) none none
            [0, 1, 2]) ∧
    pageOutSpec (fun (c e : Nat) => c == e) (FirstOrLast.first 2) none none
        [0, 1, 2] = [0, 1] ∧
    (pageInfoSpec (fun (c e : Nat) => c == e) (fun e => e)
        (fun c => toString c) (FirstOrLast.first 2) none none
        [0, 1, 2]).has_previous_page = false ∧
    (pageInfoSpec (fun (c e : Nat) => c == e) (fun e => e)
        (fun c => toString c) (FirstOrLast.first 2) none none
        [0, 1, 2]).has_next_page = true := by
  refine ⟨(paginate_page_info (fun (c e : Nat) => c == e) (fun e => e)
    (fun c => toString c) [0, 1, 2] (some 2) none none none
    (FirstOrLast.first 2) (by rfl)).1, by decide, by decide, by decide⟩

/-- C4 counterexample: over `[0, 1, 2]` with `last = 1` and no `after`, the
code reports `has_previous_page = true` although the number of edges
consumed while scanning for the `after` cursor is zero — the final `skipped`
also counts the two edges dropped by the `last` truncation, so the claim's
formula `has_previous_page = (skipped > 0)` with `skipped` defined as the
scan count alone is false. -/
theorem paginate_skipped_cex :
    paginate (fun (c e : Nat) => c == e) (fun e => e) (fun c => toString c)
        [0, 1, 2] 3 none none (some 1) none
      = Except.ok ([2],
          { has_previous_page := true, has_next_page := false,
            start_cursor := some "2", end_cursor := some "2" }) ∧
    afterSkipSpec (fun (c e : Nat) => c == e) none ([0, 1, 2] : List Nat)
      = 0 := by
  exact ⟨rfl, rfl⟩

/-- C5: `paginate` fails exactly on invalid `first`/`last` arguments — both
absent, both present, or a negative value, with the three error strings of
the source — and returns `Ok` whenever exactly one of them is supplied and
non-negative, regardless of the edges and cursors. -/
theorem paginate_argument_validation {α κ : Type} (mtc : κ → α → Bool)
    (fromEdge : α → κ) (toScalar : κ → String) (edges : List α) (total : Nat)
    (after? : Option κ) (before? : Option κ) :
    paginate mtc fromEdge toScalar edges total none after? none before?
        = Except.error errFirstLastMissing ∧
    (∀ f l : Int, paginate mtc fromEdge toScalar edges total (some f) after?
        (some l) before? = Except.error errFirstLastBoth) ∧
    (∀ f : Int, f < 0 → paginate mtc fromEdge toScalar edges total (some f)
        after? none before? = Except.error errFirstLastNegative) ∧
    (∀ l : Int, l < 0 → paginate mtc fromEdge toScalar edges total none
        after? (some l) before? = Except.error errFirstLastNegative) ∧
    (∀ f : Int, 0 ≤ f → (paginate mtc fromEdge toScalar edges total (some f)
        after? none before?).isOk = true) ∧
    (∀ l : Int, 0 ≤ l → (paginate mtc fromEdge toScalar edges total none
        after? (some l) before?).isOk = true) := by
  refine ⟨rfl, fun f l => rfl, ?_, ?_, ?_, ?_⟩
  · intro f hf
    simp [paginate, validateFirstLast, not_le.mpr hf]
  · intro l hl
    simp [paginate, validateFirstLast, not_le.mpr hl]
  · intro f hf
    simp [paginate, validateFirstLast, hf, Except.isOk, Except.toBool]
  · intro l hl
    simp [paginate, validateFirstLast, hl, Except.isOk, Except.toBool]

/-- Witness for C5 at concrete arguments over `[0, 1, 2]`. -/
theorem paginate_argument_validation_witness :
    paginate (fun (c e : Nat) => c == e) (fun e => e) (fun c => toString c)
        [0, 1, 2] 3 none none none none
      = Except.error errFirstLastMissing ∧
    paginate (fun (c e : Nat) => c == e) (fun e => e) (fun c => toString c)
        [0, 1, 2] 3 (some 1) none (some 1) none
      = Except.error errFirstLastBoth ∧
    paginate (fun (c e : Nat) => c == e) (fun e => e) (fun c => toString c)
        [0, 1, 2] 3 (some (-1)) none none none
      = Except.error errFirstLastNegative ∧
    (paginate (fun (c e : Nat) => c == e) (fun e => e) (fun c => toString c)
        [0, 1, 2] 3 (some 2) none none none).isOk = true := by
  obtain ⟨h1, h2, h3, -, h5, -⟩ :=
    paginate_argument_validation (fun (c e : Nat) => c == e) (fun e => e)
      (fun c => toString c) [0, 1, 2] 3 none none
  exact ⟨h1, h2 1 1, h3 (-1) (by decide), h5 2 (by decide)⟩

/-! ## C6 and C7: codec round-trips -/

theorem natDigitsLE_lt (b : Nat) (hb : 2 ≤ b) :
    ∀ n, ∀ d ∈ natDigitsLE b n, d < b := by
  intro n
  induction n using Nat.strong_induction_on with
  | _ n ih =>
    rw [natDigitsLE]
    split
    · intro d hd
      cases hd
    · rename_i h
      push_neg at h
      intro d hd
      rcases List.mem_cons.mp hd with rfl | hd'
      · exact Nat.mod_lt _ (by omega)
      · exact ih (n / b)
          (Nat.div_lt_self (Nat.pos_of_ne_zero h.2) hb) d hd'

theorem natDigitsLE_eq_nil_iff (b n : Nat) :
    natDigitsLE b n = [] ↔ (b ≤ 1 ∨ n = 0) := by
  rw [natDigitsLE]
  split
  · rename_i h
    simp [h]
  · rename_i h
    simp [h]

theorem natDigitsLE_getLast?_ne_zero (b : Nat) (hb : 2 ≤ b) :
    ∀ n, n ≠ 0 → (natDigitsLE b n).getLast? ≠ some 0 := by
  intro n
  induction n using Nat.strong_induction_on with
  | _ n ih =>
    intro hn
    rw [natDigitsLE]
    split
    · rename_i h
      rcases h with h | h
      · omega
      · exact absurd h hn
    · rename_i h
      push_neg at h
      by_cases hq : n / b = 0
      · have htail : natDigitsLE b (n / b) = [] :=
          (natDigitsLE_eq_nil_iff b _).mpr (Or.inr hq)
        rw [htail]
        have hmod : n % b = n := Nat.mod_eq_of_lt (by
          rcases Nat.lt_or_ge n b with hlt | hge
          · exact hlt
          · exact absurd (Nat.div_eq_zero_iff (by omega) |>.mp hq) (by omega))
        simp [hmod, hn]
      · cases htail : natDigitsLE b (n / b) with
        | nil =>
          exfalso
          rcases (natDigitsLE_eq_nil_iff b _).mp htail with h1 | h1
          · omega
          · exact hq h1
        | cons x xs =>
          rw [List.getLast?_cons_cons]
          rw [← htail]
          exact ih (n / b) (Nat.div_lt_self (Nat.pos_of_ne_zero h.2) hb) hq

theorem valLE_natDigitsLE (b : Nat) (hb : 2 ≤ b) :
    ∀ n, valLE b (natDigitsLE b n) = n := by
  intro n
  induction n using Nat.strong_induction_on with
  | _ n ih =>
    rw [natDigitsLE]
    split
    · rename_i h
      rcases h with h | h
      · omega
      · simp [valLE, h]
    · rename_i h
      push_neg at h
      show (n % b) + b * valLE b (natDigitsLE b (n / b)) = n
      rw [ih (n / b) (Nat.div_lt_self (Nat.pos_of_ne_zero h.2) hb)]
      exact Nat.mod_add_div n b

theorem natDigitsLE_valLE (b : Nat) (hb : 2 ≤ b) :
    ∀ l : List Nat, (∀ d ∈ l, d < b) → l.getLast? ≠ some 0 →
      natDigitsLE b (valLE b l) = l := by
  intro l
  induction l with
  | nil =>
    intro _ _
    rw [natDigitsLE]
    simp [valLE]
  | cons d l ih =>
    intro hbd hlast
    have hd : d < b := hbd d (List.mem_cons_self d l)
    cases l with
    | nil =>
      have hdne : d ≠ 0 := by
        simp only [List.getLast?_singleton] at hlast
        intro hc
        exact hlast (by rw [hc])
      show natDigitsLE b (d + b * valLE b []) = [d]
      have hv : d + b * valLE b [] = d := by simp [valLE]
      rw [hv, natDigitsLE]
      split
      · rename_i h
        rcases h with h | h
        · omega
        · exact absurd h hdne
      · have h1 : d % b = d := Nat.mod_eq_of_lt hd
        have h2 : d / b = 0 := Nat.div_eq_of_lt hd
        rw [h1, h2, natDigitsLE]
        simp
    | cons x xs =>
      have hlast' : (x :: xs).getLast? ≠ some 0 := by
        rw [List.getLast?_cons_cons] at hlast
        exact hlast
      have hrec := ih (fun y hy => hbd y (List.mem_cons_of_mem d hy)) hlast'
      have hvpos : valLE b (x :: xs) ≠ 0 := by
        intro hc
        rw [hc] at hrec
        rw [natDigitsLE] at hrec
        simp at hrec
      show natDigitsLE b (d + b * valLE b (x :: xs)) = d :: x :: xs
      rw [natDigitsLE]
      split
      · rename_i h
        rcases h with h | h
        · omega
        · exfalso
          have : b * valLE b (x :: xs) ≠ 0 := by
            have := Nat.pos_of_ne_zero hvpos
            have hbpos : 0 < b := by omega
            positivity
          omega
      · have h1 : (d + b * valLE b (x :: xs)) % b = d := by
          rw [Nat.add_mul_mod_self_left]
          exact Nat.mod_eq_of_lt hd
        have h2 : (d + b * valLE b (x :: xs)) / b = valLE b (x :: xs) := by
          rw [Nat.add_mul_div_left _ _ (by omega : 0 < b)]
          rw [Nat.div_eq_of_lt hd]
          omega
        rw [h1, h2, hrec]

theorem beVal_reverse (b : Nat) (l : List Nat) :
    beVal b l.reverse = valLE b l := by
  induction l with
  | nil => rfl
  | cons d l ih =>
    rw [List.reverse_cons]
    show List.foldl _ 0 (l.reverse ++ [d]) = _
    rw [List.foldl_append]
    show beVal b l.reverse * b + d = valLE b (d :: l)
    rw [ih]
    show _ = d + b * valLE b l
    ring

theorem valLE_all_zero (b : Nat) (hb : 2 ≤ b) :
    ∀ l : List Nat, valLE b l = 0 → ∀ d ∈ l, d = 0 := by
  intro l
  induction l with
  | nil => intro _ d hd; cases hd
  | cons x xs ih =>
    intro h d hd
    have hx : x + b * valLE b xs = 0 := h
    rcases List.mem_cons.mp hd with rfl | hd'
    · omega
    · refine ih ?_ d hd'
      by_contra hne
      have := Nat.pos_of_ne_zero hne
      nlinarith

theorem beVal_replicate_zero (b z : Nat) (l : List Nat) :
    beVal b (List.replicate z 0 ++ l) = beVal b l := by
  induction z with
  | zero => rfl
  | succ z ih =>
    rw [List.replicate_succ, List.cons_append]
    have h0 : (0 : Nat) * b + 0 = 0 := by ring
    show List.foldl _ (0 * b + 0) _ = _
    rw [h0]
    exact ih

theorem b58Index_b58Char_fin : ∀ d : Fin 58, b58Index (b58Char d.1) = some d.1 := by
  decide

theorem b58Index_b58Char {d : Nat} (h : d < 58) :
    b58Index (b58Char d) = some d :=
  b58Index_b58Char_fin ⟨d, h⟩

theorem b58Char_ne_one_fin : ∀ d : Fin 58, d.1 ≠ 0 → b58Char d.1 ≠ '1' := by
  decide

theorem mapOpt_map_b58Char (digs : List Nat) (h : ∀ d ∈ digs, d < 58) :
    mapOpt b58Index (digs.map b58Char) = some digs := by
  induction digs with
  | nil => rfl
  | cons d ds ih =>
    rw [List.map_cons, mapOpt,
      b58Index_b58Char (h d (List.mem_cons_self d ds)),
      ih (fun x hx => h x (List.mem_cons_of_mem d hx))]

theorem mapOpt_replicate_one (z : Nat) (rest : List Char)
    (digits : List Nat) (h : mapOpt b58Index rest = some digits) :
    mapOpt b58Index (List.replicate z '1' ++ rest)
      = some (List.replicate z 0 ++ digits) := by
  induction z with
  | zero => simpa using h
  | succ z ih =>
    rw [List.replicate_succ, List.cons_append, mapOpt, ih,
      List.replicate_succ, List.cons_append]
    rfl

theorem takeWhile_one_replicate (z : Nat) (rest : List Char)
    (h : rest.takeWhile (fun c => c == '1') = []) :
    (List.replicate z '1' ++ rest).takeWhile (fun c => c == '1')
      = List.replicate z '1' := by
  induction z with
  | zero => simpa using h
  | succ z ih =>
    rw [List.replicate_succ, List.cons_append, List.takeWhile_cons]
    simp only [beq_self_eq_true, if_true, ih]

theorem dropWhile_head_false {α : Type} (p : α → Bool) :
    ∀ (l : List α) (x : α) (xs : List α), l.dropWhile p = x :: xs →
      p x = false := by
  intro l
  induction l with
  | nil => intro x xs h; cases h
  | cons a as ih =>
    intro x xs h
    rw [List.dropWhile_cons] at h
    by_cases hp : p a = true
    · rw [if_pos hp] at h
      exact ih x xs h
    · rw [if_neg hp] at h
      cases h
      exact Bool.eq_false_iff.mpr hp

/-- The `bs58` round-trip: decoding the encoding of any byte string gives
the bytes back. -/
theorem bsDecode_bsEncode (bytes : List Nat) (hb : ∀ x ∈ bytes, x < 256) :
    bsDecode (bsEncode bytes) = some bytes := by
  set z := (bytes.takeWhile (fun b => b == 0)).length with hz
  set core := bytes.dropWhile (fun b => b == 0) with hcore
  have hsplit : List.replicate z 0 ++ core = bytes := by
    rw [hz, hcore]
    have hall : ∀ y ∈ bytes.takeWhile (fun b => b == 0), y = 0 := by
      intro y hy
      have := List.mem_takeWhile_imp hy
      simpa using this
    calc List.replicate (bytes.takeWhile (fun b => b == 0)).length 0
          ++ bytes.dropWhile (fun b => b == 0)
        = bytes.takeWhile (fun b => b == 0)
          ++ bytes.dropWhile (fun b => b == 0) := by
          rw [← List.eq_replicate_of_mem hall]
      _ = bytes := List.takeWhile_append_dropWhile _ _
  have hcore_lt : ∀ x ∈ core, x < 256 := by
    intro x hx
    refine hb x ?_
    rw [← hsplit]
    exact List.mem_append_right _ hx
  have hcore_head : ∀ x xs, core = x :: xs → x ≠ 0 := by
    intro x xs hx
    have := dropWhile_head_false (fun b => b == 0) bytes x xs (hcore ▸ hx)
    simpa using this
  have hN : beVal 256 bytes = valLE 256 core.reverse := by
    rw [← hsplit, beVal_replicate_zero]
    have : core = core.reverse.reverse := (List.reverse_reverse core).symm
    rw [this, beVal_reverse, List.reverse_reverse]
  -- the base-58 digits of the number
  set N := beVal 256 bytes with hNdef
  have hdig_lt : ∀ d ∈ natDigitsLE 58 N, d < 58 :=
    natDigitsLE_lt 58 (by omega) N
  unfold bsEncode bsDecode
  rw [mapOpt_replicate_one z _ _
    (mapOpt_map_b58Char (natDigitsLE 58 N).reverse
      (fun d hd => hdig_lt d (List.mem_reverse.mp hd)))]
  have htw : ((natDigitsLE 58 N).reverse.map b58Char).takeWhile
      (fun c => c == '1') = [] := by
    cases hrev : (natDigitsLE 58 N).reverse with
    | nil => rfl
    | cons d ds =>
      have hdN : d ∈ natDigitsLE 58 N := by
        have : d ∈ (natDigitsLE 58 N).reverse := by rw [hrev]; simp
        exact List.mem_reverse.mp this
      have hd58 : d < 58 := hdig_lt d hdN
      have hdne : d ≠ 0 := by
        intro hc
        have hlast : (natDigitsLE 58 N).getLast? = some 0 := by
          rw [← List.head?_reverse, hrev, hc]
          rfl
        have hNne : N ≠ 0 := by
          intro hc2
          rw [hc2] at hrev
          rw [natDigitsLE] at hrev
          simp at hrev
        exact natDigitsLE_getLast?_ne_zero 58 (by omega) N hNne hlast
      rw [List.map_cons, List.takeWhile_cons]
      have : (b58Char d == '1') = false := by
        have := b58Char_ne_one_fin ⟨d, hd58⟩ hdne
        simpa using this
      rw [this]
      rfl
  rw [takeWhile_one_replicate z _ htw, List.length_replicate]
  have hval : beVal 58 (List.replicate z 0 ++ (natDigitsLE 58 N).reverse)
      = N := by
    rw [beVal_replicate_zero, beVal_reverse]
    exact valLE_natDigitsLE 58 (by omega) N
  show some (List.replicate z 0
      ++ (natDigitsLE 256 (beVal 58 (List.replicate z 0
        ++ (natDigitsLE 58 N).reverse))).reverse) = some bytes
  rw [hval]
  have hrecon : (natDigitsLE 256 N).reverse = core := by
    have hlast : core.reverse.getLast? ≠ some 0 := by
      rw [List.getLast?_reverse]
      cases hcc : core with
      | nil => simp
      | cons x xs =>
        simp only [List.head?_cons]
        intro hc
        exact hcore_head x xs hcc (by
          injection hc with hx)
    have := natDigitsLE_valLE 256 (by omega) core.reverse
      (fun d hd => hcore_lt d (List.mem_reverse.mp hd)) hlast
    rw [hN, this, List.reverse_reverse]
  rw [hrecon, hsplit]

theorem varintEncode_lt256 : ∀ n, ∀ x ∈ varintEncode n, x < 256 := by
  intro n
  induction n using Nat.strong_induction_on with
  | _ n ih =>
    rw [varintEncode]
    split
    · rename_i h
      intro x hx
      rcases List.mem_singleton.mp hx with rfl
      omega
    · rename_i h
      intro x hx
      rcases List.mem_cons.mp hx with rfl | hx'
      · have := Nat.mod_lt n (y := 128) (by omega)
        omega
      · exact ih (n / 128) (Nat.div_lt_self (by omega) (by omega)) x hx'

theorem varintDecode_encode : ∀ n (extra : List Nat),
    varintDecode (varintEncode n ++ extra) = some (n, extra) := by
  intro n
  induction n using Nat.strong_induction_on with
  | _ n ih =>
    intro extra
    rw [varintEncode]
    split
    · rename_i h
      rw [List.singleton_append]
      simp [varintDecode, h]
    · rename_i h
      rw [List.cons_append]
      have hb : ¬(n % 128 + 128 < 128) := by omega
      show (if n % 128 + 128 < 128 then
          some (n % 128 + 128, varintEncode (n / 128) ++ extra)
        else
          match varintDecode (varintEncode (n / 128) ++ extra) with
          | some (m, r) => some (m * 128 + (n % 128 + 128 - 128), r)
          | none => none) = some (n, extra)
      rw [if_neg hb, ih (n / 128) (Nat.div_lt_self (by omega) (by omega))]
      show some (n / 128 * 128 + (n % 128 + 128 - 128), extra)
        = some (n, extra)
      have : n / 128 * 128 + (n % 128 + 128 - 128) = n := by omega
      rw [this]

/-- C6: decoding the encoded wire form of any `TweetCursor` — base58 over
its postcard (varint) serialization — yields the original value, for every
`tweet_id` in the `u64` range. -/
theorem tweet_cursor_roundtrip (id : Nat) (h : id < 2 ^ 64) :
    tweetCursorFromScalar (tweetCursorToScalar { tweet_id := id })
      = some { tweet_id := id } := by
  unfold tweetCursorToScalar tweetCursorFromScalar
  rw [bsDecode_bsEncode _ (varintEncode_lt256 id)]
  show (match varintDecode (varintEncode id) with
    | none => none
    | some (n, _rest) =>
      if n < 2 ^ 64 then some ({ tweet_id := n } : TweetCursorM) else none)
    = some ({ tweet_id := id } : TweetCursorM)
  have hd := varintDecode_encode id []
  rw [List.append_nil] at hd
  rw [hd]
  show (if id < 2 ^ 64 then some ({ tweet_id := id } : TweetCursorM)
      else none)
    = some ({ tweet_id := id } : TweetCursorM)
  rw [if_pos h]

/-- Witness for C6 at the tweet id from the repository's own test data. -/
theorem tweet_cursor_roundtrip_witness :
    tweetCursorFromScalar
        (tweetCursorToScalar { tweet_id := 1240718100460273665 })
      = some { tweet_id := 1240718100460273665 } :=
  tweet_cursor_roundtrip 1240718100460273665 (by decide)

theorem validUtf8_ascii_cons (b : Nat) (hb : b < 128) (l : List Nat) :
    validUtf8 (b :: l) = validUtf8 l := by
  show utf8Valid (b :: l) 0 0 0 = utf8Valid l 0 0 0
  rw [utf8Valid]
  rw [if_pos hb]

/-- C7: parsing the encoded string form of a `NodeId` yields the original
value — base58 over the UTF-8 bytes of `"boss:" + name` — for every valid
UTF-8 name (bytes of a Rust `str`), including names containing `':'` and
the empty name; decode failures are `Err`, never a panic. -/
theorem node_id_roundtrip (name : List Nat) (hv : validUtf8 name = true)
    (hb : ∀ x ∈ name, x < 256) :
    nodeIdFromStr (nodeIdToString (NodeIdM.boss name))
      = some (NodeIdM.boss name) := by
  unfold nodeIdToString nodeIdFromStr
  have hlt : ∀ x ∈ bossTagBytes ++ name, x < 256 := by
    intro x hx
    rcases List.mem_append.mp hx with hx | hx
    · simp only [bossTagBytes, List.mem_cons, List.mem_singleton] at hx
      rcases hx with rfl | rfl | rfl | rfl | rfl | hx
      · omega
      · omega
      · omega
      · omega
      · omega
      · cases hx
    · exact hb x hx
  rw [bsDecode_bsEncode _ hlt]
  show (if validUtf8 (bossTagBytes ++ name) = true then _ else none)
    = some (NodeIdM.boss name)
  have hvalid : validUtf8 (bossTagBytes ++ name) = true := by
    show validUtf8 (98 :: 111 :: 115 :: 115 :: 58 :: name) = true
    rw [validUtf8_ascii_cons 98 (by omega), validUtf8_ascii_cons 111 (by omega),
      validUtf8_ascii_cons 115 (by omega), validUtf8_ascii_cons 115 (by omega),
      validUtf8_ascii_cons 58 (by omega)]
    exact hv
  rw [if_pos hvalid]
  rfl

/-- Witness for C7 at a name containing a colon (UTF-8 bytes of `"a:b"`). -/
theorem node_id_roundtrip_witness :
    nodeIdFromStr (nodeIdToString (NodeIdM.boss [97, 58, 98]))
      = some (NodeIdM.boss [97, 58, 98]) :=
  node_id_roundtrip [97, 58, 98] (by decide) (by decide)

/-! ## C8: image-hash worker single-flight and success caching -/

theorem wCacheGet_put (c : List (CName × WHashState)) (n : CName)
    (v : WHashState) (m : CName) :
    wCacheGet (wCachePut c n v) m = if m = n then some v else wCacheGet c m := by
  induction c with
  | nil =>
    by_cases h : m = n
    · subst h; simp [wCachePut, wCacheGet]
    · have h' : ¬(n = m) := fun hc => h hc.symm
      simp [wCachePut, wCacheGet, h, h']
  | cons p rest ih =>
    by_cases hp : p.1 = n
    · by_cases h : m = n
      · subst h; simp [wCachePut, hp, wCacheGet]
      · have h' : ¬(n = m) := fun hc => h hc.symm
        simp [wCachePut, hp, wCacheGet, h, h']
    · by_cases hpm : p.1 = m
      · have h : ¬(m = n) := by rw [← hpm]; exact hp
        simp [wCachePut, hp, wCacheGet, h, hpm]
      · simp [wCachePut, hp, wCacheGet, hpm, ih]

theorem inflightOf_updateAssoc (l : List (CName × Nat)) (n : CName) (k : Nat)
    (m : CName) :
    inflightOf (updateAssoc l n k) m = if m = n then k else inflightOf l m := by
  unfold inflightOf
  rw [lookupIdx_updateAssoc]
  by_cases h : m = n <;> simp [h]

theorem wStep_req_pending (s : WorkerState) (n : CName)
    (h : wCacheGet s.cache n = some WHashState.pending) :
    wStep s (WEvent.req n) = (s, WAction.dropped) := by
  simp only [wStep]
  rw [h]

theorem wStep_req_success (s : WorkerState) (n : CName) (v : Int)
    (h : wCacheGet s.cache n = some (WHashState.success v)) :
    wStep s (WEvent.req n) = (s, WAction.cached v) := by
  simp only [wStep]
  rw [h]

theorem wStep_req_sched (s : WorkerState) (n : CName)
    (h : wCacheGet s.cache n = some WHashState.failure ∨
      wCacheGet s.cache n = none) :
    wStep s (WEvent.req n) =
      ({ cache := wCachePut s.cache n WHashState.pending
         inflight := updateAssoc s.inflight n (inflightOf s.inflight n + 1) },
       WAction.scheduled) := by
  rcases h with h | h <;> (simp only [wStep]; rw [h])

theorem wStep_req_sched_iff (s : WorkerState) (n : CName) :
    (wStep s (WEvent.req n)).2 = WAction.scheduled ↔
      (wCacheGet s.cache n = some WHashState.failure ∨
       wCacheGet s.cache n = none) := by
  constructor
  · intro h
    cases hc : wCacheGet s.cache n with
    | none => exact Or.inr rfl
    | some v =>
      cases v with
      | pending => rw [wStep_req_pending s n hc] at h; simp at h
      | success w => rw [wStep_req_success s n w hc] at h; simp at h
      | failure => exact Or.inl rfl
  · intro h
    rw [wStep_req_sched s n h]

theorem inflight_zero_of_not_pending (s : WorkerState) (n : CName)
    (hs : WInv s) (hc : wCacheGet s.cache n ≠ some WHashState.pending) :
    inflightOf s.inflight n = 0 := by
  rcases hs n with ⟨hle, hiff⟩
  by_cases h1 : inflightOf s.inflight n = 1
  · exact absurd (hiff.mp h1) hc
  · omega

theorem wInv_sched (s : WorkerState) (n : CName) (hs : WInv s)
    (hn0 : inflightOf s.inflight n = 0) :
    WInv { cache := wCachePut s.cache n WHashState.pending
           inflight := updateAssoc s.inflight n (inflightOf s.inflight n + 1) } := by
  intro m
  constructor
  · show inflightOf (updateAssoc s.inflight n (inflightOf s.inflight n + 1)) m ≤ 1
    rw [inflightOf_updateAssoc]
    by_cases hm : m = n
    · rw [if_pos hm, hn0]
    · rw [if_neg hm]; exact (hs m).1
  · show inflightOf (updateAssoc s.inflight n (inflightOf s.inflight n + 1)) m = 1
      ↔ wCacheGet (wCachePut s.cache n WHashState.pending) m
          = some WHashState.pending
    rw [inflightOf_updateAssoc, wCacheGet_put]
    by_cases hm : m = n
    · rw [if_pos hm, if_pos hm, hn0]; simp
    · rw [if_neg hm, if_neg hm]; exact (hs m).2

theorem wStep_inv (s : WorkerState) (e : WEvent) (hs : WInv s)
    (hg : wGuard s e = true) : WInv (wStep s e).1 := by
  cases e with
  | req n =>
    cases hc : wCacheGet s.cache n with
    | none =>
      rw [wStep_req_sched s n (Or.inr hc)]
      exact wInv_sched s n hs
        (inflight_zero_of_not_pending s n hs (by rw [hc]; intro hx; cases hx))
    | some v =>
      cases v with
      | pending => rw [wStep_req_pending s n hc]; exact hs
      | success w => rw [wStep_req_success s n w hc]; exact hs
      | failure =>
        rw [wStep_req_sched s n (Or.inl hc)]
        exact wInv_sched s n hs
          (inflight_zero_of_not_pending s n hs (by rw [hc]; intro hx; cases hx))
  | complete n res =>
    simp only [wGuard] at hg
    have hg' : 0 < inflightOf s.inflight n := of_decide_eq_true hg
    have h1 : inflightOf s.inflight n = 1 := by
      have := (hs n).1; omega
    cases res with
    | some u =>
      show WInv { cache := wCachePut s.cache n (WHashState.success u)
                  inflight := updateAssoc s.inflight n
                    (inflightOf s.inflight n - 1) }
      intro m
      constructor
      · show inflightOf (updateAssoc s.inflight n (inflightOf s.inflight n - 1))
            m ≤ 1
        rw [inflightOf_updateAssoc]
        by_cases hm : m = n
        · rw [if_pos hm]; omega
        · rw [if_neg hm]; exact (hs m).1
      · show inflightOf (updateAssoc s.inflight n (inflightOf s.inflight n - 1))
            m = 1
          ↔ wCacheGet (wCachePut s.cache n (WHashState.success u)) m
              = some WHashState.pending
        rw [inflightOf_updateAssoc, wCacheGet_put]
        by_cases hm : m = n
        · rw [if_pos hm, if_pos hm, h1]; simp
        · rw [if_neg hm, if_neg hm]; exact (hs m).2
    | none =>
      show WInv { cache := wCachePut s.cache n WHashState.failure
                  inflight := updateAssoc s.inflight n
                    (inflightOf s.inflight n - 1) }
      intro m
      constructor
      · show inflightOf (updateAssoc s.inflight n (inflightOf s.inflight n - 1))
            m ≤ 1
        rw [inflightOf_updateAssoc]
        by_cases hm : m = n
        · rw [if_pos hm]; omega
        · rw [if_neg hm]; exact (hs m).1
      · show inflightOf (updateAssoc s.inflight n (inflightOf s.inflight n - 1))
            m = 1
          ↔ wCacheGet (wCachePut s.cache n WHashState.failure) m
              = some WHashState.pending
        rw [inflightOf_updateAssoc, wCacheGet_put]
        by_cases hm : m = n
        · rw [if_pos hm, if_pos hm, h1]; simp
        · rw [if_neg hm, if_neg hm]; exact (hs m).2

theorem wRun_inv (es : List WEvent) : ∀ s : WorkerState, WInv s →
    wAdmissible s es = true → WInv (wRun s es) := by
  induction es with
  | nil => intro s hs _; exact hs
  | cons e rest ih =>
    intro s hs hadm
    simp only [wAdmissible, Bool.and_eq_true] at hadm
    obtain ⟨hg, hrest⟩ := hadm
    exact ih (wStep s e).1 (wStep_inv s e hs hg) hrest

theorem wRun_success_absorb (es : List WEvent) : ∀ s : WorkerState, WInv s →
    ∀ n v, wCacheGet s.cache n = some (WHashState.success v) →
    wAdmissible s es = true →
    wCacheGet (wRun s es).cache n = some (WHashState.success v) ∧
    ∀ p ∈ wLog s es, p.1 = WEvent.req n → p.2 ≠ WAction.scheduled := by
  induction es with
  | nil =>
    intro s _ n v hc _
    refine ⟨hc, ?_⟩
    intro p hp
    simp [wLog] at hp
  | cons e rest ih =>
    intro s hs n v hc hadm
    simp only [wAdmissible, Bool.and_eq_true] at hadm
    obtain ⟨hg, hrest⟩ := hadm
    have hstep : wCacheGet (wStep s e).1.cache n
        = some (WHashState.success v) := by
      cases e with
      | req m =>
        cases hcm : wCacheGet s.cache m with
        | none =>
          rw [wStep_req_sched s m (Or.inr hcm)]
          show wCacheGet (wCachePut s.cache m WHashState.pending) n = _
          rw [wCacheGet_put]
          have hnm : ¬(n = m) := by
            intro h; subst h; rw [hc] at hcm; cases hcm
          rw [if_neg hnm]; exact hc
        | some w =>
          cases w with
          | pending => rw [wStep_req_pending s m hcm]; exact hc
          | success u => rw [wStep_req_success s m u hcm]; exact hc
          | failure =>
            rw [wStep_req_sched s m (Or.inl hcm)]
            show wCacheGet (wCachePut s.cache m WHashState.pending) n = _
            rw [wCacheGet_put]
            have hnm : ¬(n = m) := by
              intro h; subst h; rw [hc] at hcm; cases hcm
            rw [if_neg hnm]; exact hc
      | complete m res =>
        simp only [wGuard] at hg
        have hg' : 0 < inflightOf s.inflight m := of_decide_eq_true hg
        have hm1 : inflightOf s.inflight m = 1 := by
          have := (hs m).1; omega
        have hpend : wCacheGet s.cache m = some WHashState.pending :=
          (hs m).2.mp hm1
        have hnm : ¬(n = m) := by
          intro h; subst h; rw [hc] at hpend; cases hpend
        cases res with
        | some u =>
          show wCacheGet (wCachePut s.cache m (WHashState.success u)) n = _
          rw [wCacheGet_put, if_neg hnm]; exact hc
        | none =>
          show wCacheGet (wCachePut s.cache m WHashState.failure) n = _
          rw [wCacheGet_put, if_neg hnm]; exact hc
    obtain ⟨htail, hlog⟩ := ih (wStep s e).1 (wStep_inv s e hs hg) n v hstep hrest
    refine ⟨htail, ?_⟩
    intro p hp hpe
    simp only [wLog] at hp
    rcases List.mem_cons.mp hp with hph | hpt
    · subst hph
      have he' : e = WEvent.req n := hpe
      subst he'
      show (wStep s (WEvent.req n)).2 ≠ WAction.scheduled
      rw [wStep_req_success s n v hc]
      simp
    · exact hlog p hpt hpe

/-- C8: in the image-hash worker (`stream` in src/image_hash/stream.rs`),
from the initial empty state and over any admissible event sequence
(requests interleaved with completions of previously scheduled fetches):
at most one fetch per boss name is in flight, and one is in flight exactly
while the recorded state is `Pending`; a request under `Pending` is dropped
(no new fetch, state unchanged); a request under `Success(h)` forwards the
cached `h` without invoking the hasher (state unchanged); a request
schedules a fetch exactly when the state is `Failure` or absent; and once a
fetch for a name has succeeded, every admissible continuation keeps the
cached success and never again schedules a fetch on a request for that
name. -/
theorem worker_single_flight (events : List WEvent)
    (hadm : wAdmissible initWorker events = true) :
    (∀ n, inflightOf (wRun initWorker events).inflight n ≤ 1) ∧
    (∀ n, inflightOf (wRun initWorker events).inflight n = 1 ↔
      wCacheGet (wRun initWorker events).cache n = some WHashState.pending) ∧
    (∀ n, wCacheGet (wRun initWorker events).cache n
        = some WHashState.pending →
      wStep (wRun initWorker events) (WEvent.req n)
        = (wRun initWorker events, WAction.dropped)) ∧
    (∀ n v, wCacheGet (wRun initWorker events).cache n
        = some (WHashState.success v) →
      wStep (wRun initWorker events) (WEvent.req n)
        = (wRun initWorker events, WAction.cached v)) ∧
    (∀ n, (wStep (wRun initWorker events) (WEvent.req n)).2
        = WAction.scheduled ↔
      (wCacheGet (wRun initWorker events).cache n = some WHashState.failure ∨
       wCacheGet (wRun initWorker events).cache n = none)) ∧
    (∀ n v, wCacheGet (wRun initWorker events).cache n
        = some (WHashState.success v) →
      ∀ es, wAdmissible (wRun initWorker events) es = true →
        wCacheGet (wRun (wRun initWorker events) es).cache n
          = some (WHashState.success v) ∧
        ∀ p ∈ wLog (wRun initWorker events) es, p.1 = WEvent.req n →
          p.2 ≠ WAction.scheduled) := by
  have hinv0 : WInv initWorker := by
    intro n
    constructor
    · show inflightOf [] n ≤ 1
      simp [inflightOf, lookupIdx]
    · show inflightOf [] n = 1 ↔ wCacheGet [] n = some WHashState.pending
      simp [inflightOf, lookupIdx, wCacheGet]
  have hinv := wRun_inv events initWorker hinv0 hadm
  refine ⟨fun n => (hinv n).1, fun n => (hinv n).2, ?_, ?_, ?_, ?_⟩
  · intro n h
    exact wStep_req_pending _ n h
  · intro n v h
    exact wStep_req_success _ n v h
  · intro n
    exact wStep_req_sched_iff _ n
  · intro n v h es hadm2
    exact wRun_success_absorb es _ hinv n v h hadm2

/-- Witness for C8: after a request, a successful completion with hash 5
and a second (cached) request, a further request for the same boss is
served from the cache without scheduling a fetch. -/
theorem worker_single_flight_witness :
    wStep (wRun initWorker wEventsEx) (WEvent.req nameA)
      = (wRun initWorker wEventsEx, WAction.cached 5) := by
  obtain ⟨-, -, -, h4, -, -⟩ := worker_single_flight wEventsEx (by decide)
  exact h4 nameA 5 (by decide)
